import Mathlib

/-!
Verification development for `surprise/model_selection/search.py`
(class `GridSearchCV`).

The Python code is shallowly embedded as executable Lean definitions:

* Python dicts are modelled as association lists whose entry order is the
  dict's insertion/iteration order (Python 3.7+ dicts preserve it).
* Candidate parameter values are modelled by the atomic type `PBase`
  (numeric and string tokens); values occurring in a parameter combination
  (`PVal`) may additionally be one level of concrete sub-option dictionary,
  which is the only nesting the code produces (`sim_options`/`bsl_options`
  expansion).
* Scores and times are modelled as rationals.  The `std_test_<m>`,
  `std_fit_time` and `std_test_time` entries of `cv_results` involve a
  floating-point square root and are the only entries left out of the model;
  no claim constrains them.
* Fallible Python operations (`AttributeError`, `KeyError`,
  `ValueError` from `zip(*[])` unpacking and from `np.reshape`) are
  modelled with `Except PyErr`.
-/

deriving instance DecidableEq for Except

/- Batteries marks the rational-number operations `@[irreducible]`, which
blocks `decide`/`rfl` evaluation of the executable model on concrete
inputs; restore the default reducibility for this development. -/
attribute [local semireducible] Rat.add Rat.mul Rat.inv Rat.sub

inductive PBase where
  | nat : Nat → PBase
  | str : String → PBase
deriving DecidableEq, Repr

/-- Value appearing in a parameter combination: either an atomic candidate
value or a concrete sub-option dictionary (as produced by the
`sim_options` / `bsl_options` expansion). -/
inductive PVal where
  | base : PBase → PVal
  | dict : List (String × PBase) → PVal
deriving DecidableEq, Repr

/-- Nested option bundle: mapping from sub-option name to its candidate
sequence (the dict value of `sim_options` / `bsl_options` in the grid). -/
abbrev SubGrid := List (String × List PBase)

/-- Top-level grid value: a flat candidate sequence, or a nested
mapping-of-sequences for the two reserved option-bundle names. -/
inductive GridVal where
  | seq : List PVal → GridVal
  | mapping : SubGrid → GridVal
deriving DecidableEq, Repr

/-- Parameter grid: Python dict from parameter name to grid value. -/
abbrev Grid := List (String × GridVal)

/-- Parameter combination: Python dict from parameter name to one value. -/
abbrev Combo := List (String × PVal)

inductive PyErr where
  /-- `AttributeError`: `.values()` called on a list (reserved key bound to a
  flat sequence). -/
  | attributeError : PyErr
  /-- `KeyError` when looking up a measure name in a dict that lacks it. -/
  | keyError : String → PyErr
  /-- `ValueError` from `np.reshape` on a size mismatch. -/
  | valueErrorReshape : PyErr
  /-- `ValueError` from unpacking `zip(*out)` when `out` is empty. -/
  | valueErrorUnpack : PyErr
deriving DecidableEq, Repr

/-- Embedding of `itertools.product(*ls)`: the cross-product of the given
sequences, in which the first sequence varies slowest and the last varies
fastest (exactly itertools' enumeration order). -/
def listProduct {α : Type} : List (List α) → List (List α)
  | [] => [[]]
  | l :: ls => l.flatMap (fun x => (listProduct ls).map (fun t => x :: t))

/-- Embedding of lines 107-108 / 113-114 of `search.py`:
`[dict(zip(options, v)) for v in product(*options.values())]` applied to a
nested option bundle, producing the ordered list of concrete sub-option
dictionaries. -/
def expandNested (m : SubGrid) : List PVal :=
  (listProduct (m.map Prod.snd)).map (fun t => PVal.dict ((m.map Prod.fst).zip t))

/-- Python dict assignment `g[k] = v` on an existing key: replaces the value
while keeping the key at its original position in iteration order. -/
def updateVal (g : Grid) (k : String) (v : GridVal) : Grid :=
  g.map (fun p => if p.1 = k then (p.1, v) else p)

/-- Embedding of one reserved-key branch of `GridSearchCV.__init__`
(lines 105-109 resp. 111-115):
if the key is present its value must be a dict (a flat list would raise
`AttributeError` on `.values()`); the dict is cross-producted into the list
of concrete sub-option dictionaries, which replaces the grid's value for
that key. -/
def applyNested (g : Grid) (k : String) : Except PyErr Grid :=
  match g.lookup k with
  | some (GridVal.mapping m) => .ok (updateVal g k (GridVal.seq (expandNested m)))
  | some (GridVal.seq _) => .error .attributeError
  | none => .ok g

/-- Iteration over a top-level grid value as `itertools.product` sees it:
a flat sequence yields its elements, a dict yields its keys (Python iterates
a dict as its keys). -/
def gridValToList : GridVal → List PVal
  | .seq l => l
  | .mapping m => m.map (fun p => PVal.base (PBase.str p.1))

/-- Embedding of lines 117-118 of `search.py`:
`[dict(zip(self.param_grid, v)) for v in product(*self.param_grid.values())]`. -/
def mkCombos (g : Grid) : List Combo :=
  (listProduct (g.map (fun p => gridValToList p.2))).map
    (fun t => (g.map Prod.fst).zip t)

/-- State stored by `GridSearchCV.__init__` (the fields the claims are
about; the algorithm class and the joblib knobs are external collaborators
carried through unchanged). -/
structure GSState where
  param_grid : Grid
  measures : List String
  param_combinations : List Combo
deriving DecidableEq, Repr

/-- Embedding of Python `str.lower()`: per-character lowercasing of the
string's characters.  (It agrees with Lean's `String.toLower`, which is
not used here because its `String.mapAux` is defined by well-founded
recursion and therefore does not reduce during kernel evaluation.) -/
def pyLower (s : String) : String := ⟨s.data.map Char.toLower⟩

/-- Embedding of `GridSearchCV.__init__` (lines 91-118 of `search.py`):
lowercases the measure names, gives the two reserved nested-option keys
their special treatment on the internally stored grid, and computes the
full list of parameter combinations. -/
def initGS (param_grid : Grid) (measures : List String) : Except PyErr GSState := do
  let g ← applyNested param_grid "sim_options"
  let g ← applyNested g "bsl_options"
  .ok { param_grid := g
        measures := measures.map pyLower
        param_combinations := mkCombos g }

/-! Generic lemmas about `listProduct` (the embedding of `itertools.product`). -/

theorem getElem?_flatMap_map {α β γ : Type} (f : α → β → γ) (xs : List α) (ys : List β)
    (i j : Nat) (hj : j < ys.length) :
    (xs.flatMap (fun x => ys.map (f x)))[i * ys.length + j]? =
      xs[i]?.bind (fun x => (ys[j]?).map (f x)) := by
  induction xs generalizing i with
  | nil => simp
  | cons x xs ih =>
    simp only [List.flatMap_cons]
    cases i with
    | zero =>
      rw [Nat.zero_mul, Nat.zero_add,
        List.getElem?_append_left (by simpa using hj)]
      simp
    | succ i =>
      have hsm : (i + 1) * ys.length = i * ys.length + ys.length :=
        Nat.succ_mul i ys.length
      rw [List.getElem?_append_right (by simp; omega)]
      have harith : (i + 1) * ys.length + j - (ys.map (f x)).length
          = i * ys.length + j := by simp; omega
      rw [harith, ih i]
      simp

theorem sum_map_len_const {α : Type} (l : List α) (c : Nat) :
    (l.map (fun _ => c)).sum = l.length * c := by
  induction l with
  | nil => simp
  | cons a l ih => simp [ih, Nat.succ_mul]; omega

theorem length_listProduct {α : Type} (ls : List (List α)) :
    (listProduct ls).length = (ls.map List.length).prod := by
  induction ls with
  | nil => rfl
  | cons l ls ih =>
    simp only [listProduct, List.length_flatMap, Function.comp_def,
      List.length_map, ih, List.map_cons, List.prod_cons]
    rw [sum_map_len_const]

/-- Product of the lengths of the sequences after position `j`: the stride
at which position `j`'s value changes in the `itertools.product`
enumeration (later sequences vary faster). -/
def suffLen {α : Type} (ls : List (List α)) (j : Nat) : Nat :=
  ((ls.drop (j + 1)).map List.length).prod

theorem prod_take_get_drop (ns : List Nat) (j : Nat) (hj : j < ns.length) :
    ns.prod = (ns.take j).prod * (ns.get ⟨j, hj⟩ * (ns.drop (j + 1)).prod) := by
  conv_lhs => rw [← List.take_append_drop j ns]
  rw [List.prod_append, List.drop_eq_getElem_cons hj, List.prod_cons,
    List.get_eq_getElem]

theorem prod_len_decompose {α : Type} (ls : List (List α)) (j : Nat)
    (hj : j < ls.length) :
    (ls.map List.length).prod =
      ((ls.take j).map List.length).prod *
        ((ls.get ⟨j, hj⟩).length * suffLen ls j) := by
  have h1 := prod_take_get_drop (ls.map List.length) j (by simpa using hj)
  simpa [suffLen, List.map_take, List.map_drop, List.get_eq_getElem] using h1

/-- Element `i` of `itertools.product(*ls)`: a tuple whose `j`-th component
is the sequence `ls[j]` indexed by the mixed-radix digit
`(i / suffLen ls j) % (ls[j]).length` — i.e. enumeration is in sequence
order with later sequences varying fastest. -/
theorem listProduct_getElem? {α : Type} (ls : List (List α)) (i : Nat)
    (hi : i < (ls.map List.length).prod) :
    ∃ t, (listProduct ls)[i]? = some t ∧ t.length = ls.length ∧
      ∀ j (hj : j < ls.length),
        t[j]? = (ls.get ⟨j, hj⟩)[(i / suffLen ls j) % (ls.get ⟨j, hj⟩).length]? := by
  induction ls generalizing i with
  | nil =>
    simp only [List.map_nil, List.prod_nil, Nat.lt_one_iff] at hi
    subst hi
    exact ⟨[], rfl, rfl, fun j hj => absurd hj (Nat.not_lt_zero j)⟩
  | cons l ls ih =>
    simp only [List.map_cons, List.prod_cons] at hi
    have hR : 0 < (ls.map List.length).prod := by
      rcases Nat.eq_zero_or_pos (ls.map List.length).prod with h | h
      · rw [h, Nat.mul_zero] at hi; exact absurd hi (Nat.not_lt_zero i)
      · exact h
    set R := (ls.map List.length).prod with hRdef
    have hdiv : i / R < l.length :=
      Nat.div_lt_of_lt_mul (by rw [Nat.mul_comm]; exact hi)
    have hmod : i % R < R := Nat.mod_lt i hR
    obtain ⟨t, ht, htlen, htj⟩ := ih (i % R) hmod
    have hx : l[i / R]? = some (l.get ⟨i / R, hdiv⟩) := by
      simp [List.getElem?_eq_getElem hdiv, List.get_eq_getElem]
    refine ⟨l.get ⟨i / R, hdiv⟩ :: t, ?_, by simp [htlen], ?_⟩
    · have hidx : (i / R) * R + i % R = i := by
        rw [Nat.mul_comm (i / R) R]; exact Nat.div_add_mod i R
      have hkey := getElem?_flatMap_map (fun x t => x :: t) l (listProduct ls)
        (i / R) (i % R) (by rw [length_listProduct]; exact hmod)
      rw [length_listProduct] at hkey
      rw [hidx] at hkey
      simp only [listProduct]
      rw [hkey, hx, ht]
      rfl
    · intro j hj
      cases j with
      | zero =>
        have hsl : suffLen (l :: ls) 0 = R := by simp [suffLen]
        simp only [List.getElem?_cons_zero, List.get, hsl]
        rw [Nat.mod_eq_of_lt hdiv]
        exact hx.symm
      | succ j =>
        have hj' : j < ls.length := Nat.lt_of_succ_lt_succ hj
        have hsl : suffLen (l :: ls) (j + 1) = suffLen ls j := by simp [suffLen]
        set S := suffLen ls j with hSdef
        set n := (ls.get ⟨j, hj'⟩).length with hndef
        have hdvd : S * n ∣ R := by
          rw [hRdef, prod_len_decompose ls j hj']
          exact ⟨((ls.take j).map List.length).prod, by ring⟩
        have hdigit : (i % R) / S % n = i / S % n := by
          rw [← Nat.mod_mul_right_div_self, Nat.mod_mod_of_dvd _ hdvd,
            Nat.mod_mul_right_div_self]
        simp only [List.getElem?_cons_succ, List.get, hsl]
        rw [htj j hj', hdigit]

/-!
Numeric helpers used by `GridSearchCV.fit`.  Scores are rationals.
-/

/-- Embedding of `np.ndarray.argmin` on a 1-D array: index of the first
occurrence of the minimum (numpy documents first-occurrence semantics).
`np.argmin` raises on an empty array; in `fit` the vector is never empty
(an empty trial list already fails at `zip(*out)` unpacking), so the empty
case is given the dummy value 0. -/
def argminGo : List ℚ → Nat → Nat → ℚ → Nat
  | [], _, best, _ => best
  | x :: xs, i, best, bv =>
    if x < bv then argminGo xs (i + 1) i x else argminGo xs (i + 1) best bv

def argminQ : List ℚ → Nat
  | [] => 0
  | x :: xs => argminGo xs 1 0 x

/-- Embedding of `np.ndarray.argmax`: index of the first occurrence of the
maximum. -/
def argmaxGo : List ℚ → Nat → Nat → ℚ → Nat
  | [], _, best, _ => best
  | x :: xs, i, best, bv =>
    if bv < x then argmaxGo xs (i + 1) i x else argmaxGo xs (i + 1) best bv

def argmaxQ : List ℚ → Nat
  | [] => 0
  | x :: xs => argmaxGo xs 1 0 x

/-- Embedding of `np.reshape` of a flat length-`len` array to shape
`(n, s)`: row-major chunking, raising `ValueError` unless `len = n * s`
(numpy never truncates or pads). -/
def reshapeRows {α : Type} (l : List α) (n s : Nat) :
    Except PyErr (List (List α)) :=
  if l.length = n * s then
    .ok ((List.range n).map (fun i => (l.drop (i * s)).take s))
  else .error .valueErrorReshape

/-- Row-wise mean (`matrix.mean(axis=1)`); each row has length `s`. -/
def rowMeans (mat : List (List ℚ)) (s : Nat) : List ℚ :=
  mat.map (fun r => r.sum / (s : ℚ))

/-- Column `j` of a row-major matrix (`matrix[:, j]`). -/
def colOf (mat : List (List ℚ)) (j : Nat) : List ℚ :=
  mat.map (fun r => r.getD j 0)

/-!
Embedding of `np.argsort` with its default `kind='quicksort'`: numpy's
indirect introsort (`aquicksort` in `npysort/quicksort.c.src`): median-of-3
quicksort on an index array, switching to insertion sort on segments of at
most 16 elements (`SMALL_QUICKSORT = 15` compares `pr - pl > 15`) and to
heapsort once a global depth budget of `2 * msb(n)` partition steps is
spent.  The recursion below mirrors the C worklist: the larger partition is
deferred (pushed) and the smaller one processed first, with the shared
depth counter threaded through in processing order.  The explicit `fuel`
arguments only bound the loops for Lean's termination checker; they are
chosen large enough never to be exhausted on the control flow the C code
actually performs.

This sort is deterministic but NOT stable: equal elements are reordered by
the partition swaps as soon as a segment is longer than 16.
-/

def vat (v : Array ℚ) (i : Nat) : ℚ := v.getD i 0

def tat (t : Array Nat) (i : Nat) : Nat := t.getD i 0

def aswap (t : Array Nat) (i j : Nat) : Array Nat :=
  let xi := tat t i
  let xj := tat t j
  (t.setD i xj).setD j xi

/-- Inner shift loop of numpy's indirect insertion sort:
`while (pj > pl && vp < v[*pk]) *pj-- = *pk--;` returning the final `pj`. -/
def ainsShift (v : Array ℚ) (vp : ℚ) (lo : Nat) :
    Array Nat → Nat → Nat → Array Nat × Nat
  | t, pj, 0 => (t, pj)
  | t, pj, fuel + 1 =>
    if lo < pj ∧ vp < vat v (tat t (pj - 1)) then
      ainsShift v vp lo (t.setD pj (tat t (pj - 1))) (pj - 1) fuel
    else (t, pj)

/-- Outer loop of numpy's indirect insertion sort over `[lo, hi]`
(`for (pi = pl + 1; pi <= pr; ++pi)`), stable on equal keys. -/
def ainsLoop (v : Array ℚ) (lo hi : Nat) :
    Array Nat → Nat → Nat → Array Nat
  | t, _, 0 => t
  | t, pi, fuel + 1 =>
    if pi ≤ hi then
      let vi := tat t pi
      let vp := vat v vi
      let (t, pj) := ainsShift v vp lo t pi pi
      ainsLoop v lo hi (t.setD pj vi) (pi + 1) fuel
    else t

def ainsertionsort (v : Array ℚ) (t : Array Nat) (lo hi : Nat) : Array Nat :=
  ainsLoop v lo hi t (lo + 1) (hi + 2 - lo)

/-- Sift step shared by both phases of numpy's indirect heapsort
(1-based heap on the segment starting at absolute position `lo`;
`a[m]` in the C code is absolute position `lo + m - 1`).  Returns the
array after the chain of hole moves together with the final hole index. -/
def aheapSift (v : Array ℚ) (lo n : Nat) (tmp : Nat) :
    Array Nat → Nat → Nat → Nat → Array Nat × Nat
  | t, i, _, 0 => (t, i)
  | t, i, j, fuel + 1 =>
    if j ≤ n then
      let j := if j < n ∧ vat v (tat t (lo + j - 1)) < vat v (tat t (lo + j))
               then j + 1 else j
      if vat v tmp < vat v (tat t (lo + j - 1)) then
        aheapSift v lo n tmp (t.setD (lo + i - 1) (tat t (lo + j - 1))) j (2 * j) fuel
      else (t, i)
    else (t, i)

/-- Heapify phase (`for (l = n >> 1; l > 0; --l)`). -/
def aheapBuild (v : Array ℚ) (lo n : Nat) : Array Nat → Nat → Nat → Array Nat
  | t, _, 0 => t
  | t, l, fuel + 1 =>
    if 1 ≤ l then
      let tmp := tat t (lo + l - 1)
      let (t, i) := aheapSift v lo n tmp t l (2 * l) (n + 2)
      aheapBuild v lo n (t.setD (lo + i - 1) tmp) (l - 1) fuel
    else t

/-- Extraction phase (`for (; n > 1;)`). -/
def aheapExtract (v : Array ℚ) (lo : Nat) : Array Nat → Nat → Nat → Array Nat
  | t, _, 0 => t
  | t, n, fuel + 1 =>
    if 1 < n then
      let tmp := tat t (lo + n - 1)
      let t := t.setD (lo + n - 1) (tat t lo)
      let n := n - 1
      let (t, i) := aheapSift v lo n tmp t 1 2 (n + 2)
      aheapExtract v lo (t.setD (lo + i - 1) tmp) n fuel
    else t

/-- Embedding of numpy's indirect heapsort `aheapsort` on the segment
`[lo, hi]`. -/
def aheapsort (v : Array ℚ) (t : Array Nat) (lo hi : Nat) : Array Nat :=
  let n := hi + 1 - lo
  aheapExtract v lo (aheapBuild v lo n t (n / 2) (n / 2 + 1)) n (n + 1)

/-- Upward scan `do ++pi; while (v[*pi] < vp);`. -/
def ascanUp (v : Array ℚ) (vp : ℚ) (t : Array Nat) : Nat → Nat → Nat
  | pi, 0 => pi + 1
  | pi, fuel + 1 =>
    if vat v (tat t (pi + 1)) < vp then ascanUp v vp t (pi + 1) fuel else pi + 1

/-- Downward scan `do --pj; while (vp < v[*pj]);`. -/
def ascanDown (v : Array ℚ) (vp : ℚ) (t : Array Nat) : Nat → Nat → Nat
  | pj, 0 => pj - 1
  | pj, fuel + 1 =>
    if vp < vat v (tat t (pj - 1)) then ascanDown v vp t (pj - 1) fuel else pj - 1

/-- Partition exchange loop of `aquicksort`; returns the array and the
final `pi` (where the pivot is swapped to). -/
def apartLoop (v : Array ℚ) (vp : ℚ) (hi : Nat) :
    Array Nat → Nat → Nat → Nat → Array Nat × Nat
  | t, pi, _, 0 => (t, pi)
  | t, pi, pj, fuel + 1 =>
    let pi := ascanUp v vp t pi (hi + 2)
    let pj := ascanDown v vp t pj (hi + 2)
    if pj ≤ pi then (t, pi)
    else apartLoop v vp hi (aswap t pi pj) pi pj fuel

/-- Recursive rendering of the `aquicksort` worklist over the segment
`[lo, hi]`, threading the shared depth budget `dl` in the C code's
processing order (smaller partition first). -/
def aqsortSeg (v : Array ℚ) : Array Nat → Nat → Nat → Int → Nat → Array Nat × Int
  | t, _, _, dl, 0 => (t, dl)
  | t, lo, hi, dl, fuel + 1 =>
    if 15 < hi - lo then
      if dl < 0 then (aheapsort v t lo hi, dl - 1)
      else
        let dl := dl - 1
        let pm := lo + (hi - lo) / 2
        let t := if vat v (tat t pm) < vat v (tat t lo) then aswap t pm lo else t
        let t := if vat v (tat t hi) < vat v (tat t pm) then aswap t hi pm else t
        let t := if vat v (tat t pm) < vat v (tat t lo) then aswap t pm lo else t
        let vp := vat v (tat t pm)
        let t := aswap t pm (hi - 1)
        let (t, pi) := apartLoop v vp hi t lo (hi - 1) (hi + 2)
        let t := aswap t pi (hi - 1)
        if pi - lo < hi - pi then
          let (t, dl) := aqsortSeg v t lo (pi - 1) dl fuel
          aqsortSeg v t (pi + 1) hi dl fuel
        else
          let (t, dl) := aqsortSeg v t (pi + 1) hi dl fuel
          aqsortSeg v t lo (pi - 1) dl fuel
    else (ainsertionsort v t lo hi, dl)

/-- Position of the most significant bit (`npy_get_msb`): floor of the
base-2 logarithm, 0 for inputs below 2.  Structurally recursive on an
explicit halving budget so that it reduces during kernel evaluation
(Lean's `Nat.log2` is defined by well-founded recursion and does not). -/
def msbAux : Nat → Nat → Nat
  | _, 0 => 0
  | n, fuel + 1 => if 2 ≤ n then msbAux (n / 2) fuel + 1 else 0

def msbNat (n : Nat) : Nat := msbAux n n

/-- Embedding of `np.argsort(values)` with the default `kind='quicksort'`
(numpy's indirect introsort, depth budget `2 * npy_get_msb(n)`). -/
def argsortNp (l : List ℚ) : List Nat :=
  let v := l.toArray
  let n := l.length
  let t := (List.range n).toArray
  (aqsortSeg v t 0 (n - 1) (2 * msbNat n) (n + 2)).1.toList

/-- Embedding of lines 179-182 of `search.py`:
`indices = mean.argsort(); rank = np.empty_like(indices);
rank[indices] = np.arange(len(indices)) + 1`. -/
def rankVector (mv : List ℚ) : List Nat :=
  let idx := argsortNp mv
  idx.enum.foldl (fun acc p => acc.set p.2 (p.1 + 1))
    (List.replicate mv.length 0)

/-!
Collaborators of `GridSearchCV.fit`.  `get_cv` and `KFold` live in
`model_selection/split.py` and `fit_and_score` in
`model_selection/validation.py`, neither of which is part of src/; they are
modelled from the spec (§4.2, §6).
-/

/-- Cross-validation iterator collaborator: reports a fixed fold count
(`get_n_folds`) and yields an ordered list of (trainset, testset) pairs for
a dataset (`split`).  Trainsets, testsets and datasets are opaque tokens. -/
structure CVIter where
  n_folds : Nat
  splitsOf : Nat → List (Nat × Nat)

/-- The `cv` constructor argument: `None`, an int fold count, or an
iterator instance. -/
inductive CVConfig where
  | noneCfg : CVConfig
  | intCfg : Nat → CVConfig
  | iterCfg : CVIter → CVConfig

/-- Modelled from the spec: `KFold(n_splits=n)` — a splitter that reports
`n` folds and yields `n` splits for a dataset.  The partition contents are
an external collaborator ("treated as a black box"), so the split pairs are
opaque tokens derived from the dataset token. -/
def KFoldModel (n : Nat) : CVIter :=
  { n_folds := n, splitsOf := fun d => (List.range n).map (fun i => (d, i)) }

/-- Modelled from the spec: `get_cv` (in `model_selection/split.py`)
resolves the `cv` argument — `None` means `KFold(5)`, an int means
`KFold(n)`, an iterator instance is used as-is. -/
def get_cv : CVConfig → CVIter
  | .noneCfg => KFoldModel 5
  | .intCfg n => KFoldModel n
  | .iterCfg it => it

/-- An algorithm instance `self.algo_class(**params)`: algorithm behaviour
is an external collaborator, so an instance is represented by the
parameters it was constructed with. -/
structure AlgoInst where
  params : Combo
deriving DecidableEq, Repr

/-- Result of one scoring trial: a measure-name → score dict, the fit
duration and the scoring duration. -/
abbrev TrialOut := List (String × ℚ) × ℚ × ℚ

/-- Modelled from the spec: the single-trial scorer `fit_and_score`
(in `model_selection/validation.py`) — takes the algorithm instance, the
split's trainset and testset and the requested measure names, and returns
(measure scores, fit duration, scoring duration). -/
abbrev Scorer := AlgoInst → Nat → Nat → List String → TrialOut

/-- Embedding of the trial dispatch of `fit` (lines 131-140):
one trial per element of `product(self.param_combinations, cv.split(data))`
— combinations as the outer loop, splits as the inner loop.  joblib's
`Parallel` returns results in submission order regardless of execution
order, so the collected `out` list is exactly this enumeration. -/
def runTrials (gs : GSState) (scorer : Scorer) (cv : CVIter) (data : Nat) :
    List TrialOut :=
  gs.param_combinations.flatMap (fun params =>
    (cv.splitsOf data).map (fun s => scorer ⟨params⟩ s.1 s.2 gs.measures))

/-- Embedding of line 142, `test_measures_dicts, fit_times, test_times =
zip(*out)`: unpacking `zip(*[])` into three names raises `ValueError`. -/
def unpackTrials (out : List TrialOut) :
    Except PyErr (List (List (String × ℚ)) × List ℚ × List ℚ) :=
  match out with
  | [] => .error .valueErrorUnpack
  | _ => .ok (out.map (fun o => o.1), out.map (fun o => o.2.1),
              out.map (fun o => o.2.2))

/-- Embedding of `[d[m] for d in test_measures_dicts]` (line 158):
`KeyError` if some trial dict lacks the measure. -/
def lookupScores (m : String) :
    List (List (String × ℚ)) → Except PyErr (List ℚ)
  | [] => .ok []
  | d :: ds =>
    match d.lookup m with
    | some q => (lookupScores m ds).map (fun l => q :: l)
    | none => .error (.keyError m)

/-- Embedding of the first measure loop of `fit` (lines 157-159): per
measure, gather the flat score list and reshape it to
`(n_parameters_combinations, n_splits)`. -/
def buildTestMeasures (dicts : List (List (String × ℚ))) (n s : Nat) :
    List String → Except PyErr (List (String × List (List ℚ)))
  | [] => .ok []
  | m :: ms => do
    let flat ← lookupScores m dicts
    let mat ← reshapeRows flat n s
    let rest ← buildTestMeasures dicts n s ms
    .ok ((m, mat) :: rest)

/-- Structured rendering of the string keys of the `cv_results` dict.
`splitTest j m` is the Python key `'split{j}_test_{m}'`, `meanTest m` is
`'mean_test_{m}'`, `rankTest m` is `'rank_test_{m}'`, `meanFitTime` and
`meanTestTime` are `'mean_fit_time'` / `'mean_test_time'`, and `params` is
`'params'`.  The `'std_test_{m}'`, `'std_fit_time'` and `'std_test_time'`
entries involve a floating-point square root and are left out of the
rational-valued model; no claim constrains them. -/
inductive CVKey where
  | splitTest : Nat → String → CVKey
  | meanTest : String → CVKey
  | rankTest : String → CVKey
  | meanFitTime : CVKey
  | meanTestTime : CVKey
  | params : CVKey
deriving DecidableEq, Repr

inductive CVVal where
  | arr : List ℚ → CVVal
  | rankArr : List Nat → CVVal
  | comboArr : List Combo → CVVal
deriving DecidableEq, Repr

/-- The `cv_results` entries one measure contributes (lines 167-182):
its per-split columns, its mean vector, and its rank vector. -/
def perMeasureEntries (m : String) (mat : List (List ℚ)) (s : Nat) :
    List (CVKey × CVVal) :=
  ((List.range s).map (fun j => (CVKey.splitTest j m, CVVal.arr (colOf mat j))))
    ++ [(CVKey.meanTest m, CVVal.arr (rowMeans mat s)),
        (CVKey.rankTest m, CVVal.rankArr (rankVector (rowMeans mat s)))]

/-- Embedding of lines 184-188: argmin of the means for the error measures
`'mae'`/`'rmse'`, argmax for `'fcp'`.  For any other measure name neither
branch assigns `best_index[m]`, so the following
`self.param_combinations[best_index[m]]` raises `KeyError(m)`. -/
def bestIndexOf (m : String) (mv : List ℚ) : Except PyErr Nat :=
  if m = "mae" ∨ m = "rmse" then .ok (argminQ mv)
  else if m = "fcp" then .ok (argmaxQ mv)
  else .error (.keyError m)

structure AggOut where
  cv_results : List (CVKey × CVVal)
  best_index : List (String × Nat)
  best_params : List (String × Combo)
  best_score : List (String × ℚ)
  best_estimator : List (String × AlgoInst)
deriving DecidableEq, Repr

/-- Embedding of the second measure loop of `fit` (lines 166-191):
per measure, emit the `cv_results` entries, select the best index by the
measure's direction, and record `best_params`, `best_score`
(`mean_measures[best_index]`) and a freshly constructed estimator. -/
def aggregateMeasures (tm : List (String × List (List ℚ)))
    (combos : List Combo) (s : Nat) : List String → Except PyErr AggOut
  | [] => .ok ⟨[], [], [], [], []⟩
  | m :: ms => do
    let mat := (tm.lookup m).getD []
    let mv := rowMeans mat s
    let bi ← bestIndexOf m mv
    let rest ← aggregateMeasures tm combos s ms
    .ok ⟨perMeasureEntries m mat s ++ rest.cv_results,
         (m, bi) :: rest.best_index,
         (m, combos.getD bi []) :: rest.best_params,
         (m, mv.getD bi 0) :: rest.best_score,
         (m, ⟨combos.getD bi []⟩) :: rest.best_estimator⟩

/-- Everything `fit` stores on `self` (lines 203-207). -/
structure FitOutput where
  test_measures : List (String × List (List ℚ))
  cv_results : List (CVKey × CVVal)
  best_index : List (String × Nat)
  best_params : List (String × Combo)
  best_score : List (String × ℚ)
  best_estimator : List (String × AlgoInst)
deriving DecidableEq, Repr

/-- Embedding of `GridSearchCV.fit` (lines 120-207): resolve the CV
iterator, run all trials (combinations outer, splits inner), unpack the
results, reshape per-measure score lists to
`(len(param_combinations), cv.get_n_folds())`, aggregate (means, ranks,
best selection per measure), reshape and average the fit/test times, and
assemble `cv_results`. -/
def fitGS (gs : GSState) (scorer : Scorer) (cvcfg : CVConfig) (data : Nat) :
    Except PyErr FitOutput := do
  let cv := get_cv cvcfg
  let out := runTrials gs scorer cv data
  let (dicts, fitTimes, testTimes) ← unpackTrials out
  let n := gs.param_combinations.length
  let s := cv.n_folds
  let tm ← buildTestMeasures dicts n s gs.measures
  let agg ← aggregateMeasures tm gs.param_combinations s gs.measures
  let fitMat ← reshapeRows fitTimes n s
  let testMat ← reshapeRows testTimes n s
  .ok { test_measures := tm
        cv_results := agg.cv_results ++
          [(CVKey.meanFitTime, CVVal.arr (rowMeans fitMat s)),
           (CVKey.meanTestTime, CVVal.arr (rowMeans testMat s)),
           (CVKey.params, CVVal.comboArr gs.param_combinations)]
        best_index := agg.best_index
        best_params := agg.best_params
        best_score := agg.best_score
        best_estimator := agg.best_estimator }

/-!
Heap-level model of `__init__` for the no-mutation claim.  A Python dict
object is a table from keys to references into a heap of values;
`param_grid.copy()` (line 96) is a shallow copy — a fresh table with the
same references, sharing the heap cells.  The reserved-key treatment
rebinds a key of the internally owned table to a freshly allocated cell;
it never writes an existing heap cell and never touches the caller's
table. -/

abbrev Ref := Nat

abbrev HStore := List GridVal

abbrev HDict := List (String × Ref)

def deref (st : HStore) (r : Ref) : GridVal := st.getD r (GridVal.seq [])

def materialize (st : HStore) (d : HDict) : Grid :=
  d.map (fun p => (p.1, deref st p.2))

def updateRef (d : HDict) (k : String) (r : Ref) : HDict :=
  d.map (fun p => if p.1 = k then (p.1, r) else p)

/-- Heap-level embedding of one reserved-key branch of `__init__`: read the
nested bundle through the shared heap, allocate the expanded list as a
fresh cell, and re-point the internally owned table's entry at it. -/
def applyNestedH (st : HStore) (selfG : HDict) (k : String) :
    Except PyErr (HStore × HDict) :=
  match selfG.lookup k with
  | Option.none => .ok (st, selfG)
  | some r =>
    match deref st r with
    | GridVal.mapping m =>
        .ok (st ++ [GridVal.seq (expandNested m)], updateRef selfG k st.length)
    | GridVal.seq _ => .error .attributeError

/-- Heap-level embedding of `__init__`: `self.param_grid =
param_grid.copy()` (a fresh table with identical entries over the shared
heap), then the two reserved-key branches on the copy, then the
combination list. -/
def initH (st : HStore) (callerG : HDict) (measures : List String) :
    Except PyErr (HStore × HDict × GSState) := do
  let (st₁, selfG) ← applyNestedH st callerG "sim_options"
  let (st₂, selfG) ← applyNestedH st₁ selfG "bsl_options"
  .ok (st₂, selfG,
       { param_grid := materialize st₂ selfG
         measures := measures.map pyLower
         param_combinations := mkCombos (materialize st₂ selfG) })

/-! Membership, duplicate-freeness and counting lemmas for `listProduct`. -/

theorem mem_listProduct {α : Type} {ls : List (List α)} {t : List α} :
    t ∈ listProduct ls ↔ List.Forall₂ (fun a l => a ∈ l) t ls := by
  induction ls generalizing t with
  | nil =>
    simp only [listProduct, List.mem_singleton, List.forall₂_nil_right_iff]
  | cons l ls ih =>
    simp only [listProduct, List.mem_flatMap, List.mem_map]
    constructor
    · rintro ⟨x, hx, t', ht', rfl⟩
      exact List.Forall₂.cons hx (ih.mp ht')
    · intro h
      cases h with
      | cons hx ht' => exact ⟨_, hx, _, ih.mpr ht', rfl⟩

theorem nodup_listProduct {α : Type} {ls : List (List α)}
    (h : ∀ l ∈ ls, l.Nodup) : (listProduct ls).Nodup := by
  induction ls with
  | nil => simp [listProduct]
  | cons l ls ih =>
    simp only [listProduct]
    refine List.nodup_flatMap.mpr ⟨?_, ?_⟩
    · intro x _
      exact (ih (fun l' hl' => h l' (List.mem_cons_of_mem _ hl'))).map
        (fun t₁ t₂ e => by injection e)
    · have hl : l.Nodup := h l (List.mem_cons_self _ _)
      refine hl.imp ?_
      intro x y hxy
      intro t h₁ h₂
      obtain ⟨t₁, _, rfl⟩ := List.mem_map.mp h₁
      obtain ⟨t₂, _, he⟩ := List.mem_map.mp h₂
      exact hxy (by injection he with h _; exact h.symm)

theorem countP_eq_one_of_nodup {α : Type} [DecidableEq α] {l : List α} {a : α}
    (h : l.Nodup) (ha : a ∈ l) : l.countP (fun x => decide (x = a)) = 1 := by
  induction l with
  | nil => cases ha
  | cons x xs ih =>
    rw [List.countP_cons]
    rcases List.mem_cons.mp ha with rfl | hmem
    · have hnot : a ∉ xs := (List.nodup_cons.mp h).1
      have hz : xs.countP (fun x => decide (x = a)) = 0 := by
        rw [List.countP_eq_zero]
        intro b hb
        simp only [decide_eq_true_eq]
        rintro rfl; exact hnot hb
      simp [hz]
    · have hne : x ≠ a := by rintro rfl; exact (List.nodup_cons.mp h).1 hmem
      have hc := ih (List.nodup_cons.mp h).2 hmem
      simp [hc, hne]

/-- `zip` against a fixed key list is injective on lists of matching
length. -/
theorem zip_right_inj {α β : Type} {ks : List α} {t₁ t₂ : List β}
    (h₁ : t₁.length = ks.length) (h₂ : t₂.length = ks.length)
    (h : ks.zip t₁ = ks.zip t₂) : t₁ = t₂ := by
  induction ks generalizing t₁ t₂ with
  | nil =>
    cases t₁ with
    | nil => cases t₂ with
      | nil => rfl
      | cons b t₂ => simp at h₂
    | cons b t₁ => simp at h₁
  | cons k ks ih =>
    cases t₁ with
    | nil => simp at h₁
    | cons b₁ t₁ =>
      cases t₂ with
      | nil => simp at h₂
      | cons b₂ t₂ =>
        simp only [List.zip_cons_cons, List.cons.injEq, Prod.mk.injEq] at h
        simp only [List.length_cons] at h₁ h₂
        rw [h.1.2, ih (by omega) (by omega) h.2]

theorem countP_map_zip {α β : Type} [DecidableEq α] [DecidableEq β]
    {k : List α} {P : List (List β)} {t : List β}
    (hlen : ∀ u ∈ P, u.length = k.length) (ht : t.length = k.length) :
    (P.map (fun u => k.zip u)).countP (fun c => decide (c = k.zip t)) =
      P.countP (fun u => decide (u = t)) := by
  rw [List.countP_map]
  refine List.countP_congr ?_
  intro u hu
  simp only [Function.comp_apply, decide_eq_true_eq]
  constructor
  · intro h; exact zip_right_inj (hlen u hu) ht h
  · intro h; rw [h]

/-! Association-list helpers used by the claim theorems. -/

/-- Decidable form of "this grid value is a flat sequence". -/
def isSeqVal : GridVal → Bool
  | .seq _ => true
  | .mapping _ => false

/-- Decidable form of "the grid does not bind this key to a flat sequence"
(so the reserved-key branch cannot raise `AttributeError`). -/
def notFlatAt (g : Grid) (k : String) : Bool :=
  match g.lookup k with
  | some (GridVal.seq _) => false
  | _ => true

theorem lookup_of_mem_nodup {κ β : Type} [DecidableEq κ] {g : List (κ × β)}
    (hnd : (g.map Prod.fst).Nodup) {k : κ} {v : β} (hp : (k, v) ∈ g) :
    g.lookup k = some v := by
  induction g with
  | nil => cases hp
  | cons q g ih =>
    obtain ⟨a, b⟩ := q
    rw [List.map_cons] at hnd
    rcases List.mem_cons.mp hp with he | hmem
    · injection he with h1 h2
      subst h1; subst h2
      simp [List.lookup_cons]
    · have hne : a ≠ k := by
        intro he
        refine (List.nodup_cons.mp hnd).1 ?_
        have : k ∈ g.map Prod.fst := List.mem_map_of_mem Prod.fst hmem
        rwa [he]
      have hbe : (k == a) = false :=
        beq_eq_false_iff_ne.mpr (fun h => hne h.symm)
      simp only [List.lookup_cons, hbe]
      exact ih (List.nodup_cons.mp hnd).2 hmem

theorem keys_updateVal (g : Grid) (k : String) (v : GridVal) :
    (updateVal g k v).map Prod.fst = g.map Prod.fst := by
  induction g with
  | nil => rfl
  | cons q g ih =>
    unfold updateVal at ih ⊢
    simp only [List.map_cons]
    by_cases h : q.1 = k <;> simp [h, ih]

theorem mem_updateVal_of_ne {g : Grid} {p : String × GridVal} (hp : p ∈ g)
    (k : String) (v : GridVal) (hne : p.1 ≠ k) : p ∈ updateVal g k v := by
  have : (fun q : String × GridVal => if q.1 = k then (q.1, v) else q) p = p := by
    simp [hne]
  exact this ▸ List.mem_map_of_mem _ hp

theorem mem_updateVal_self {g : Grid} {p : String × GridVal} (hp : p ∈ g)
    (v : GridVal) : (p.1, v) ∈ updateVal g p.1 v := by
  have : (fun q : String × GridVal => if q.1 = p.1 then (q.1, v) else q) p
      = (p.1, v) := by simp
  exact this ▸ List.mem_map_of_mem _ hp

theorem listProduct_eq_nil {α : Type} {ls : List (List α)}
    (h : ([] : List α) ∈ ls) : listProduct ls = [] := by
  have hz : (ls.map List.length).prod = 0 := by
    refine List.prod_eq_zero ?_
    exact List.mem_map.mpr ⟨[], h, rfl⟩
  have := length_listProduct ls
  rw [hz] at this
  exact List.length_eq_zero.mp this

theorem expandNested_eq_nil {sub : SubGrid} {q : String × List PBase}
    (hq : q ∈ sub) (hnil : q.2 = []) : expandNested sub = [] := by
  unfold expandNested
  rw [listProduct_eq_nil (List.mem_map.mpr ⟨q, hq, hnil⟩)]
  rfl

theorem mkCombos_eq_nil {g : Grid} {p : String × GridVal} (hp : p ∈ g)
    (hnil : p.2 = GridVal.seq []) : mkCombos g = [] := by
  unfold mkCombos
  rw [listProduct_eq_nil (List.mem_map.mpr ⟨p, hp, by rw [hnil]; rfl⟩)]
  rfl

/-!
C1 — flat-grid expansion: `param_combinations` enumerates the full
cross-product in grid-key order with later keys varying fastest.
-/

/-- C1: for every parameter grid whose keys all map to flat candidate
sequences (and which does not use the two reserved nested-option names),
construction succeeds and produces a `param_combinations` list of exactly
`n1 * ... * nk` dictionaries; combination `i` has exactly the grid's keys in
grid order, and its value for the `j`-th key is that key's candidate
sequence indexed by the mixed-radix digit
`(i / suffLen j) % n_j` — i.e. enumeration is in grid-key iteration order
with later keys varying fastest. -/
theorem C1_flat_grid_expansion (g : Grid) (ms : List String)
    (hflat : ∀ p ∈ g, isSeqVal p.2 = true)
    (hsim : g.lookup "sim_options" = none)
    (hbsl : g.lookup "bsl_options" = none) :
    ∃ gs, initGS g ms = .ok gs ∧
      gs.param_combinations.length
        = (g.map (fun p => (gridValToList p.2).length)).prod ∧
      ∀ i, i < gs.param_combinations.length →
        ∃ cb, gs.param_combinations[i]? = some cb ∧
          cb.map Prod.fst = g.map Prod.fst ∧
          ∀ j (hj : j < g.length),
            cb[j]? = ((gridValToList (g.get ⟨j, hj⟩).2)[
                (i / suffLen (g.map (fun p => gridValToList p.2)) j) %
                  (gridValToList (g.get ⟨j, hj⟩).2).length]?).map
              (fun v => ((g.get ⟨j, hj⟩).1, v)) := by
  have hinit : initGS g ms = .ok
      { param_grid := g, measures := ms.map pyLower,
        param_combinations := mkCombos g } := by
    simp only [initGS, applyNested, hsim, hbsl, Bind.bind, Except.bind]
  refine ⟨_, hinit, ?_, ?_⟩
  · simp only [mkCombos, List.length_map, length_listProduct, List.map_map]
    rfl
  · intro i hi
    simp only [mkCombos, List.length_map, length_listProduct] at hi
    obtain ⟨t, ht, htlen, htj⟩ :=
      listProduct_getElem? (g.map (fun p => gridValToList p.2)) i hi
    have hkt : (g.map Prod.fst).length = t.length := by
      simp [htlen]
    refine ⟨(g.map Prod.fst).zip t, ?_, ?_, ?_⟩
    · simp only [mkCombos, List.getElem?_map, ht]
      rfl
    · exact List.map_fst_zip _ _ (by simp [htlen])
    · intro j hj
      have hjk : j < (g.map Prod.fst).length := by simpa using hj
      have hjt : j < t.length := by simp [htlen, hj]
      have hzlen : j < ((g.map Prod.fst).zip t).length := by
        simp [List.length_zip, htlen]; omega
      rw [List.getElem?_eq_getElem hzlen, List.getElem_zip]
      have hval : t[j]? = (gridValToList (g.get ⟨j, hj⟩).2)[
          (i / suffLen (g.map (fun p => gridValToList p.2)) j) %
            (gridValToList (g.get ⟨j, hj⟩).2).length]? := by
        rw [htj j (by simpa using hj)]
        simp [List.get_eq_getElem, List.getElem_map]
      rw [← hval, List.getElem?_eq_getElem hjt]
      simp [List.get_eq_getElem, List.getElem_map]

/-- Concrete flat grid `{'a': [1, 2], 'b': [10, 20, 30]}` used as the C1
witness input. -/
def gridC1 : Grid :=
  [("a", GridVal.seq [PVal.base (PBase.nat 1), PVal.base (PBase.nat 2)]),
   ("b", GridVal.seq [PVal.base (PBase.nat 10), PVal.base (PBase.nat 20),
                      PVal.base (PBase.nat 30)])]

/-- Witness for C1 at the grid `{'a': [1, 2], 'b': [10, 20, 30]}`. -/
theorem C1_flat_grid_expansion_witness :
    ∃ gs, initGS gridC1 ["rmse"] = .ok gs ∧
      gs.param_combinations.length
        = (gridC1.map (fun p => (gridValToList p.2).length)).prod ∧
      ∀ i, i < gs.param_combinations.length →
        ∃ cb, gs.param_combinations[i]? = some cb ∧
          cb.map Prod.fst = gridC1.map Prod.fst ∧
          ∀ j (hj : j < gridC1.length),
            cb[j]? = ((gridValToList (gridC1.get ⟨j, hj⟩).2)[
                (i / suffLen (gridC1.map (fun p => gridValToList p.2)) j) %
                  (gridValToList (gridC1.get ⟨j, hj⟩).2).length]?).map
              (fun v => ((gridC1.get ⟨j, hj⟩).1, v)) :=
  C1_flat_grid_expansion gridC1 ["rmse"] (by decide) (by decide) (by decide)

/-! Facts about the reserved-key treatment used by C2, C8 and C9. -/

theorem lookup_updateVal_ne (g : Grid) (k k' : String) (v : GridVal)
    (hne : k' ≠ k) : (updateVal g k v).lookup k' = g.lookup k' := by
  induction g with
  | nil => rfl
  | cons q g ih =>
    obtain ⟨a, b⟩ := q
    unfold updateVal at ih ⊢
    simp only [List.map_cons]
    by_cases hak : a = k
    · have hb : (k' == a) = false :=
        beq_eq_false_iff_ne.mpr (fun he => hne (he.trans hak))
      rw [show (if (a, b).1 = k then ((a, b).1, v) else (a, b)) = (a, v)
          from if_pos hak]
      simp only [List.lookup_cons, hb]
      exact ih
    · rw [show (if (a, b).1 = k then ((a, b).1, v) else (a, b)) = (a, b)
          from if_neg hak]
      simp only [List.lookup_cons]
      cases k' == a with
      | false => exact ih
      | true => rfl

theorem applyNested_isOk {g : Grid} {k : String}
    (h : notFlatAt g k = true) : ∃ g₂, applyNested g k = .ok g₂ := by
  unfold notFlatAt at h
  unfold applyNested
  cases hl : g.lookup k with
  | none => exact ⟨g, rfl⟩
  | some v =>
    cases v with
    | mapping m => exact ⟨_, rfl⟩
    | seq l => rw [hl] at h; simp at h

theorem applyNested_keys {g g₂ : Grid} {k : String}
    (h : applyNested g k = .ok g₂) : g₂.map Prod.fst = g.map Prod.fst := by
  unfold applyNested at h
  cases hl : g.lookup k with
  | none => rw [hl] at h; injection h with h; rw [← h]
  | some v =>
    cases v with
    | mapping m =>
      rw [hl] at h; injection h with h; rw [← h]; exact keys_updateVal g k _
    | seq l => rw [hl] at h; cases h

theorem applyNested_lookup_ne {g g₂ : Grid} {k : String}
    (h : applyNested g k = .ok g₂) (k' : String) (hne : k' ≠ k) :
    g₂.lookup k' = g.lookup k' := by
  unfold applyNested at h
  cases hl : g.lookup k with
  | none => rw [hl] at h; injection h with h; rw [← h]
  | some v =>
    cases v with
    | mapping m =>
      rw [hl] at h; injection h with h; rw [← h]
      exact lookup_updateVal_ne g k k' _ hne
    | seq l => rw [hl] at h; cases h

theorem applyNested_pres_entry {g g₂ : Grid} {k : String}
    (h : applyNested g k = .ok g₂) {p : String × GridVal} (hp : p ∈ g)
    (hne : p.1 ≠ k) : p ∈ g₂ := by
  unfold applyNested at h
  cases hl : g.lookup k with
  | none => rw [hl] at h; injection h with h; rw [← h]; exact hp
  | some v =>
    cases v with
    | mapping m =>
      rw [hl] at h; injection h with h; rw [← h]
      exact mem_updateVal_of_ne hp k _ hne
    | seq l => rw [hl] at h; cases h

theorem applyNested_reserved_entry {g g₂ : Grid} {k : String} {sub : SubGrid}
    (hnd : (g.map Prod.fst).Nodup) (hmem : (k, GridVal.mapping sub) ∈ g)
    (h : applyNested g k = .ok g₂) :
    (k, GridVal.seq (expandNested sub)) ∈ g₂ := by
  have hl : g.lookup k = some (GridVal.mapping sub) :=
    lookup_of_mem_nodup hnd hmem
  unfold applyNested at h
  rw [hl] at h
  injection h with h
  rw [← h]
  exact mem_updateVal_self (p := (k, GridVal.mapping sub)) hmem _

/-!
C8 — an empty candidate sequence (for a flat key, or for a sub-option of a
reserved nested-option key) yields zero combinations, returned as an empty
list rather than raised as an error.
-/

/-- C8: for every well-formed grid (unique keys, reserved keys not bound to
flat sequences) in which some key maps to an empty flat candidate sequence,
or some sub-option of a reserved nested-option key maps to an empty
candidate sequence, construction succeeds (no error is raised) and
`param_combinations` is the empty list. -/
theorem C8_empty_candidates (g : Grid) (ms : List String)
    (hnd : (g.map Prod.fst).Nodup)
    (hsim : notFlatAt g "sim_options" = true)
    (hbsl : notFlatAt g "bsl_options" = true)
    (hempty : ∃ p ∈ g, p.2 = GridVal.seq ([] : List PVal) ∨
       ((p.1 = "sim_options" ∨ p.1 = "bsl_options") ∧
        ∃ sub, p.2 = GridVal.mapping sub ∧ ∃ q ∈ sub, q.2 = ([] : List PBase))) :
    ∃ gs, initGS g ms = .ok gs ∧ gs.param_combinations = [] := by
  obtain ⟨g₁, h₁⟩ := applyNested_isOk hsim
  have hbsl₁ : notFlatAt g₁ "bsl_options" = true := by
    unfold notFlatAt
    rw [applyNested_lookup_ne h₁ "bsl_options" (by decide)]
    exact hbsl
  obtain ⟨g₂, h₂⟩ := applyNested_isOk hbsl₁
  have hinit : initGS g ms = .ok
      { param_grid := g₂, measures := ms.map pyLower,
        param_combinations := mkCombos g₂ } := by
    simp only [initGS, h₁, h₂, Bind.bind, Except.bind]
  refine ⟨_, hinit, ?_⟩
  show mkCombos g₂ = []
  obtain ⟨p, hp, hcase⟩ := hempty
  obtain ⟨pk, pv⟩ := p
  rcases hcase with hseq | ⟨hres, sub, hmap, q, hq, hqnil⟩
  · -- a flat key with an empty candidate list; it cannot be a reserved key
    replace hseq : pv = GridVal.seq [] := hseq
    have hpsim : pk ≠ "sim_options" := by
      intro he
      have hl : g.lookup "sim_options" = some pv := by
        rw [← he]; exact lookup_of_mem_nodup hnd hp
      unfold notFlatAt at hsim
      rw [hl, hseq] at hsim
      simp at hsim
    have hpbsl : pk ≠ "bsl_options" := by
      intro he
      have hl : g.lookup "bsl_options" = some pv := by
        rw [← he]; exact lookup_of_mem_nodup hnd hp
      unfold notFlatAt at hbsl
      rw [hl, hseq] at hbsl
      simp at hbsl
    have hp₂ : (pk, pv) ∈ g₂ :=
      applyNested_pres_entry h₂ (applyNested_pres_entry h₁ hp hpsim) hpbsl
    exact mkCombos_eq_nil hp₂ hseq
  · -- a reserved key whose bundle has an empty sub-option candidate list
    replace hmap : pv = GridVal.mapping sub := hmap
    have hx : expandNested sub = [] := expandNested_eq_nil hq hqnil
    rcases hres with hsimk | hbslk
    · replace hsimk : pk = "sim_options" := hsimk
      have hmem : ("sim_options", GridVal.mapping sub) ∈ g := by
        rw [← hsimk, ← hmap]; exact hp
      have he₁ : ("sim_options", GridVal.seq (expandNested sub)) ∈ g₁ :=
        applyNested_reserved_entry hnd hmem h₁
      have he₂ : ("sim_options", GridVal.seq (expandNested sub)) ∈ g₂ :=
        applyNested_pres_entry h₂ he₁ (by simp)
      exact mkCombos_eq_nil he₂ (by rw [hx])
    · replace hbslk : pk = "bsl_options" := hbslk
      have hmem : ("bsl_options", GridVal.mapping sub) ∈ g := by
        rw [← hbslk, ← hmap]; exact hp
      have hmem₁ : ("bsl_options", GridVal.mapping sub) ∈ g₁ :=
        applyNested_pres_entry h₁ hmem (by simp)
      have hnd₁ : (g₁.map Prod.fst).Nodup := by
        rw [applyNested_keys h₁]; exact hnd
      have he₂ : ("bsl_options", GridVal.seq (expandNested sub)) ∈ g₂ :=
        applyNested_reserved_entry hnd₁ hmem₁ h₂
      exact mkCombos_eq_nil he₂ (by rw [hx])

/-- Witness for C8 at the grid `{'k': [1], 'sim_options': {'name': []}}`. -/
theorem C8_empty_candidates_witness :
    ∃ gs, initGS [("k", GridVal.seq [PVal.base (PBase.nat 1)]),
                  ("sim_options", GridVal.mapping [("name", [])])] ["rmse"]
        = .ok gs ∧ gs.param_combinations = [] :=
  C8_empty_candidates
    [("k", GridVal.seq [PVal.base (PBase.nat 1)]),
     ("sim_options", GridVal.mapping [("name", [])])] ["rmse"]
    (by decide) (by decide) (by decide)
    ⟨("sim_options", GridVal.mapping [("name", [])]), by decide,
     Or.inr ⟨Or.inl rfl, [("name", [])], rfl, ("name", []), by decide, rfl⟩⟩

/-! Helper lemmas for C2. -/

theorem lookup_eq_none_of_not_mem {κ β : Type} [DecidableEq κ]
    {g : List (κ × β)} {k : κ}
    (h : k ∉ g.map Prod.fst) : g.lookup k = none := by
  induction g with
  | nil => rfl
  | cons q g ih =>
    obtain ⟨a, b⟩ := q
    simp only [List.map_cons, List.mem_cons] at h
    push_neg at h
    have hb : (k == a) = false := beq_eq_false_iff_ne.mpr h.1
    simp only [List.lookup_cons, hb]
    exact ih h.2

theorem lookup_append_cons_self {β : Type} (g₁ g₂ : List (String × β))
    (k₀ : String) (v : β) (h : k₀ ∉ g₁.map Prod.fst) :
    (g₁ ++ (k₀, v) :: g₂).lookup k₀ = some v := by
  induction g₁ with
  | nil => simp [List.lookup_cons]
  | cons q g₁ ih =>
    obtain ⟨a, b⟩ := q
    simp only [List.map_cons, List.mem_cons] at h
    push_neg at h
    have hb : (k₀ == a) = false := beq_eq_false_iff_ne.mpr h.1
    simp only [List.cons_append, List.lookup_cons, hb]
    exact ih h.2

theorem map_entry_id {g : Grid} {k : String} (h : ∀ p ∈ g, p.1 ≠ k)
    (v : GridVal) :
    g.map (fun p => if p.1 = k then (p.1, v) else p) = g := by
  induction g with
  | nil => rfl
  | cons q g ih =>
    rw [List.map_cons, if_neg (h q (List.mem_cons_self _ _)),
      ih (fun p hp => h p (List.mem_cons_of_mem _ hp))]

theorem updateVal_decomp (g₁ g₂ : Grid) (k₀ : String) (v₀ v : GridVal)
    (h : k₀ ∉ (g₁ ++ g₂).map Prod.fst) :
    updateVal (g₁ ++ (k₀, v₀) :: g₂) k₀ v = g₁ ++ (k₀, v) :: g₂ := by
  have h' : ∀ p ∈ g₁ ++ g₂, p.1 ≠ k₀ := by
    intro p hp he
    exact h (he ▸ List.mem_map_of_mem Prod.fst hp)
  unfold updateVal
  rw [List.map_append, List.map_cons, if_pos rfl,
    map_entry_id (fun p hp => h' p (List.mem_append_left _ hp)) v,
    map_entry_id (fun p hp => h' p (List.mem_append_right _ hp)) v]

theorem nodup_expandNested {sub : SubGrid} (hsub : ∀ q ∈ sub, q.2.Nodup) :
    (expandNested sub).Nodup := by
  unfold expandNested
  have hP : (listProduct (sub.map Prod.snd)).Nodup := by
    refine nodup_listProduct ?_
    intro l hl
    obtain ⟨q, hq, rfl⟩ := List.mem_map.mp hl
    exact hsub q hq
  refine List.Nodup.map_on ?_ hP
  intro t₁ h₁ t₂ h₂ he
  injection he with he
  have hl₁ : t₁.length = (sub.map Prod.fst).length := by
    have := (mem_listProduct.mp h₁).length_eq
    simpa using this
  have hl₂ : t₂.length = (sub.map Prod.fst).length := by
    have := (mem_listProduct.mp h₂).length_eq
    simpa using this
  exact zip_right_inj hl₁ hl₂ he

/-!
C2 — nested-option expansion: a reserved key's mapping-of-sequences is
first cross-producted into a list of concrete sub-option dictionaries,
each of which appears exactly once as that key's value among the final
combinations holding any fixed assignment of the other keys.
-/

/-- C2: for a well-formed grid `g₁ ++ [(k₀, sub)] ++ g₂` whose key `k₀` is
one of the two reserved nested-option names and maps to a nested bundle
`sub` (all other keys flat with duplicate-free candidate lists, reserved
names not reused, sub-option candidate lists duplicate-free), construction
succeeds; the internal grid replaces `k₀`'s value by the expanded list
`expandNested sub` of length `m1 * ... * mr`; and for every expanded
dictionary `d` and every assignment `t₁ / t₂` of the other keys' values,
exactly one final combination carries that assignment together with value
`d` at `k₀`. -/
theorem C2_nested_option_expansion (g₁ g₂ : Grid) (k₀ : String)
    (sub : SubGrid) (ms : List String)
    (hk₀ : k₀ = "sim_options" ∨ k₀ = "bsl_options")
    (hsim : "sim_options" ∉ (g₁ ++ g₂).map Prod.fst)
    (hbsl : "bsl_options" ∉ (g₁ ++ g₂).map Prod.fst)
    (hflat : ∀ p ∈ g₁ ++ g₂, isSeqVal p.2 = true)
    (hsubnd : ∀ q ∈ sub, q.2.Nodup)
    (hvalnd : ∀ p ∈ g₁ ++ g₂, ∀ l, p.2 = GridVal.seq l → l.Nodup) :
    ∃ gs, initGS (g₁ ++ (k₀, GridVal.mapping sub) :: g₂) ms = .ok gs ∧
      gs.param_grid = g₁ ++ (k₀, GridVal.seq (expandNested sub)) :: g₂ ∧
      (expandNested sub).length = (sub.map (fun q => q.2.length)).prod ∧
      ∀ d ∈ expandNested sub,
        ∀ t₁ ∈ listProduct (g₁.map (fun p => gridValToList p.2)),
        ∀ t₂ ∈ listProduct (g₂.map (fun p => gridValToList p.2)),
          gs.param_combinations.countP
            (fun cb => decide (cb =
              (((g₁ ++ (k₀, GridVal.mapping sub) :: g₂).map Prod.fst).zip
                (t₁ ++ d :: t₂)))) = 1 := by
  have hk₀mem : k₀ ∉ (g₁ ++ g₂).map Prod.fst := by
    rcases hk₀ with rfl | rfl
    · exact hsim
    · exact hbsl
  have hk₁ : k₀ ∉ g₁.map Prod.fst := by
    intro h
    exact hk₀mem (by rw [List.map_append]; exact List.mem_append_left _ h)
  have hlook : (g₁ ++ (k₀, GridVal.mapping sub) :: g₂).lookup k₀
      = some (GridVal.mapping sub) :=
    lookup_append_cons_self g₁ g₂ k₀ _ hk₁
  have happ : applyNested (g₁ ++ (k₀, GridVal.mapping sub) :: g₂) k₀
      = .ok (g₁ ++ (k₀, GridVal.seq (expandNested sub)) :: g₂) := by
    unfold applyNested
    rw [hlook]
    show Except.ok (updateVal (g₁ ++ (k₀, GridVal.mapping sub) :: g₂) k₀
      (GridVal.seq (expandNested sub))) = _
    rw [updateVal_decomp g₁ g₂ k₀ _ _ hk₀mem]
  have hkeysG : (g₁ ++ (k₀, GridVal.mapping sub) :: g₂).map Prod.fst
      = g₁.map Prod.fst ++ k₀ :: g₂.map Prod.fst := by
    simp
  have hkeysG' : (g₁ ++ (k₀, GridVal.seq (expandNested sub)) :: g₂).map Prod.fst
      = g₁.map Prod.fst ++ k₀ :: g₂.map Prod.fst := by
    simp
  have hinit : initGS (g₁ ++ (k₀, GridVal.mapping sub) :: g₂) ms = .ok
      { param_grid := g₁ ++ (k₀, GridVal.seq (expandNested sub)) :: g₂,
        measures := ms.map pyLower,
        param_combinations :=
          mkCombos (g₁ ++ (k₀, GridVal.seq (expandNested sub)) :: g₂) } := by
    rcases hk₀ with rfl | rfl
    · have hlb : (g₁ ++ ("sim_options", GridVal.seq (expandNested sub)) :: g₂).lookup
          "bsl_options" = none := by
        refine lookup_eq_none_of_not_mem ?_
        rw [hkeysG']
        intro hmem
        rcases List.mem_append.mp hmem with h | h
        · exact hbsl (by rw [List.map_append]; exact List.mem_append_left _ h)
        · rcases List.mem_cons.mp h with h | h
          · exact absurd h (by decide)
          · exact hbsl (by rw [List.map_append]; exact List.mem_append_right _ h)
      have happ₂ : applyNested
          (g₁ ++ ("sim_options", GridVal.seq (expandNested sub)) :: g₂)
          "bsl_options" = .ok
          (g₁ ++ ("sim_options", GridVal.seq (expandNested sub)) :: g₂) := by
        unfold applyNested
        rw [hlb]
      simp only [initGS, happ, happ₂, Bind.bind, Except.bind]
    · have hls : (g₁ ++ ("bsl_options", GridVal.mapping sub) :: g₂).lookup
          "sim_options" = none := by
        refine lookup_eq_none_of_not_mem ?_
        rw [hkeysG]
        intro hmem
        rcases List.mem_append.mp hmem with h | h
        · exact hsim (by rw [List.map_append]; exact List.mem_append_left _ h)
        · rcases List.mem_cons.mp h with h | h
          · exact absurd h (by decide)
          · exact hsim (by rw [List.map_append]; exact List.mem_append_right _ h)
      have happ₁ : applyNested (g₁ ++ ("bsl_options", GridVal.mapping sub) :: g₂)
          "sim_options" = .ok
          (g₁ ++ ("bsl_options", GridVal.mapping sub) :: g₂) := by
        unfold applyNested
        rw [hls]
      simp only [initGS, happ₁, happ, Bind.bind, Except.bind]
  refine ⟨_, hinit, rfl, ?_, ?_⟩
  · unfold expandNested
    rw [List.length_map, length_listProduct, List.map_map]
    rfl
  · intro d hd t₁ ht₁ t₂ ht₂
    have hvals : (g₁ ++ (k₀, GridVal.seq (expandNested sub)) :: g₂).map
        (fun p => gridValToList p.2)
        = (g₁.map (fun p => gridValToList p.2)) ++ (expandNested sub) ::
          (g₂.map (fun p => gridValToList p.2)) := by
      simp [gridValToList]
    have hlen₁ : t₁.length = g₁.length := by
      have := (mem_listProduct.mp ht₁).length_eq
      simpa using this
    have hlen₂ : t₂.length = g₂.length := by
      have := (mem_listProduct.mp ht₂).length_eq
      simpa using this
    show (mkCombos (g₁ ++ (k₀, GridVal.seq (expandNested sub)) :: g₂)).countP _ = 1
    unfold mkCombos
    rw [hvals, hkeysG']
    have hzip : ((g₁ ++ (k₀, GridVal.mapping sub) :: g₂).map Prod.fst)
        = g₁.map Prod.fst ++ k₀ :: g₂.map Prod.fst := hkeysG
    rw [hzip]
    have hcount := countP_map_zip
      (k := g₁.map Prod.fst ++ k₀ :: g₂.map Prod.fst)
      (P := listProduct ((g₁.map (fun p => gridValToList p.2)) ++
        (expandNested sub) :: (g₂.map (fun p => gridValToList p.2))))
      (t := t₁ ++ d :: t₂)
      (by
        intro u hu
        have := (mem_listProduct.mp hu).length_eq
        simp only [List.length_append, List.length_cons, List.length_map] at this ⊢
        omega)
      (by
        simp only [List.length_append, List.length_cons, List.length_map,
          hlen₁, hlen₂])
    rw [hcount]
    refine countP_eq_one_of_nodup ?_ ?_
    · refine nodup_listProduct ?_
      intro l hl
      rcases List.mem_append.mp hl with h | h
      · obtain ⟨p, hp, rfl⟩ := List.mem_map.mp h
        have hpm : p ∈ g₁ ++ g₂ := List.mem_append_left _ hp
        cases hv : p.2 with
        | seq l' =>
          have := hvalnd p hpm l' hv
          simpa [gridValToList, hv] using this
        | mapping m' =>
          have := hflat p hpm
          rw [hv] at this
          simp [isSeqVal] at this
      · rcases List.mem_cons.mp h with rfl | h
        · exact nodup_expandNested hsubnd
        · obtain ⟨p, hp, rfl⟩ := List.mem_map.mp h
          have hpm : p ∈ g₁ ++ g₂ := List.mem_append_right _ hp
          cases hv : p.2 with
          | seq l' =>
            have := hvalnd p hpm l' hv
            simpa [gridValToList, hv] using this
          | mapping m' =>
            have := hflat p hpm
            rw [hv] at this
            simp [isSeqVal] at this
    · refine mem_listProduct.mpr ?_
      exact List.rel_append (mem_listProduct.mp ht₁)
        (List.Forall₂.cons hd (mem_listProduct.mp ht₂))

/-- Concrete prefix grid `{'k': [1, 2]}` used by the C2 witness. -/
def gridC2a : Grid :=
  [("k", GridVal.seq [PVal.base (PBase.nat 1), PVal.base (PBase.nat 2)])]

/-- Concrete nested bundle `{'name': ['cosine', 'pearson'],
'user_based': [0, 1]}` used by the C2 witness. -/
def subC2 : SubGrid :=
  [("name", [PBase.str "cosine", PBase.str "pearson"]),
   ("user_based", [PBase.nat 0, PBase.nat 1])]

/-- Witness for C2 at the grid
`{'k': [1, 2], 'sim_options': {'name': [...], 'user_based': [...]}}`. -/
theorem C2_nested_option_expansion_witness :
    ∃ gs, initGS (gridC2a ++ ("sim_options", GridVal.mapping subC2) :: [])
        ["rmse"] = .ok gs ∧
      gs.param_grid
        = gridC2a ++ ("sim_options", GridVal.seq (expandNested subC2)) :: [] ∧
      (expandNested subC2).length = (subC2.map (fun q => q.2.length)).prod ∧
      ∀ d ∈ expandNested subC2,
        ∀ t₁ ∈ listProduct (gridC2a.map (fun p => gridValToList p.2)),
        ∀ t₂ ∈ listProduct (([] : Grid).map (fun p => gridValToList p.2)),
          gs.param_combinations.countP
            (fun cb => decide (cb =
              (((gridC2a ++ ("sim_options", GridVal.mapping subC2) :: []).map
                Prod.fst).zip (t₁ ++ d :: t₂)))) = 1 :=
  C2_nested_option_expansion gridC2a [] "sim_options" subC2 ["rmse"]
    (Or.inl rfl) (by decide) (by decide) (by decide) (by decide)
    (by
      intro p hp l hl
      simp only [gridC2a, List.append_nil, List.mem_singleton] at hp
      subst hp
      injection hl with h
      rw [← h]
      decide)

/-! Helper lemmas for C9 (heap model). -/

theorem applyNestedH_store {st : HStore} {d : HDict} {k : String}
    {st' : HStore} {d' : HDict}
    (h : applyNestedH st d k = .ok (st', d')) : ∃ ext, st' = st ++ ext := by
  unfold applyNestedH at h
  split at h
  · injection h with h
    exact ⟨[], by rw [List.append_nil]; exact (congrArg Prod.fst h).symm⟩
  · split at h
    · injection h with h
      refine ⟨_, (congrArg Prod.fst h).symm⟩
    · cases h

theorem deref_append {st ext : HStore} {r : Ref} (hr : r < st.length) :
    deref (st ++ ext) r = deref st r := by
  unfold deref
  rw [List.getD_eq_getElem?_getD, List.getD_eq_getElem?_getD,
    List.getElem?_append_left hr]

theorem materialize_append {st ext : HStore} {d : HDict}
    (hvalid : ∀ p ∈ d, p.2 < st.length) :
    materialize (st ++ ext) d = materialize st d := by
  unfold materialize
  refine List.map_congr_left ?_
  intro p hp
  rw [deref_append (hvalid p hp)]

/-!
C9 — the caller-supplied grid is never mutated: `__init__` works on a
shallow copy, the reserved-key replacement re-points only the copy's
entries at freshly allocated heap cells, and no existing heap cell is
written.
-/

/-- C9: for every heap, every caller grid object whose references are live
in the heap, and every measure list, if heap-level construction succeeds
then the caller's grid still materializes to exactly the keys and values it
had before — the final heap is the original heap plus freshly allocated
cells only. -/
theorem C9_no_caller_mutation (st : HStore) (callerG : HDict)
    (ms : List String) (out : HStore × HDict × GSState)
    (hvalid : ∀ p ∈ callerG, p.2 < st.length)
    (hok : initH st callerG ms = .ok out) :
    materialize out.1 callerG = materialize st callerG ∧
      ∃ ext, out.1 = st ++ ext := by
  unfold initH at hok
  cases h₁ : applyNestedH st callerG "sim_options" with
  | error e =>
    rw [h₁] at hok
    simp only [Bind.bind, Except.bind] at hok
    cases hok
  | ok p₁ =>
    obtain ⟨st₁, d₁⟩ := p₁
    rw [h₁] at hok
    simp only [Bind.bind, Except.bind] at hok
    cases h₂ : applyNestedH st₁ d₁ "bsl_options" with
    | error e =>
      rw [h₂] at hok
      cases hok
    | ok p₂ =>
      obtain ⟨st₂, d₂⟩ := p₂
      rw [h₂] at hok
      injection hok with hok
      obtain ⟨e₁, he₁⟩ := applyNestedH_store h₁
      obtain ⟨e₂, he₂⟩ := applyNestedH_store h₂
      have hstore : out.1 = st ++ (e₁ ++ e₂) := by
        rw [← hok]
        show st₂ = st ++ (e₁ ++ e₂)
        rw [he₂, he₁, List.append_assoc]
      refine ⟨?_, e₁ ++ e₂, hstore⟩
      rw [hstore]
      exact materialize_append hvalid

/-- Concrete heap for the C9 witness: cell 0 holds `[1, 2]`, cell 1 holds
the nested bundle `{'name': ['cosine', 'pearson']}`. -/
def stC9 : HStore :=
  [GridVal.seq [PVal.base (PBase.nat 1), PVal.base (PBase.nat 2)],
   GridVal.mapping [("name", [PBase.str "cosine", PBase.str "pearson"])]]

/-- Concrete caller grid object `{'k': ref 0, 'sim_options': ref 1}` for
the C9 witness. -/
def dictC9 : HDict := [("k", 0), ("sim_options", 1)]

/-- Witness for C9 at a grid whose `sim_options` value is replaced on the
internal copy during construction. -/
theorem C9_no_caller_mutation_witness :
    ∃ out, initH stC9 dictC9 ["rmse"] = .ok out ∧
      (materialize out.1 dictC9 = materialize stC9 dictC9 ∧
        ∃ ext, out.1 = stC9 ++ ext) := by
  refine ⟨_, rfl, C9_no_caller_mutation stC9 dictC9 ["rmse"] _ (by decide) rfl⟩

/-! Step lemmas for `fitGS`, used by C3, C4, C6, C7 and C10. -/

theorem lookup_append_of_not_mem {κ β : Type} [DecidableEq κ]
    {l₁ : List (κ × β)} (l₂ : List (κ × β)) {k : κ}
    (h : ∀ p ∈ l₁, p.1 ≠ k) : (l₁ ++ l₂).lookup k = l₂.lookup k := by
  induction l₁ with
  | nil => rfl
  | cons q l₁ ih =>
    obtain ⟨a, b⟩ := q
    have hb : (k == a) = false :=
      beq_eq_false_iff_ne.mpr (fun he => h (a, b) (List.mem_cons_self _ _) he.symm)
    simp only [List.cons_append, List.lookup_cons, hb]
    exact ih (fun p hp => h p (List.mem_cons_of_mem _ hp))

theorem unpackTrials_ok {out : List TrialOut} (h : out ≠ []) :
    unpackTrials out = .ok (out.map (fun o => o.1), out.map (fun o => o.2.1),
      out.map (fun o => o.2.2)) := by
  unfold unpackTrials
  cases out with
  | nil => exact absurd rfl h
  | cons o out => rfl

theorem lookupScores_ok {m : String} {dicts : List (List (String × ℚ))}
    (h : ∀ d ∈ dicts, ∃ q, d.lookup m = some q) :
    ∃ l, lookupScores m dicts = .ok l ∧ l.length = dicts.length ∧
      ∀ i : Nat, l[i]? = (dicts[i]?).bind
        (fun d : List (String × ℚ) => List.lookup m d) := by
  induction dicts with
  | nil => exact ⟨[], rfl, rfl, fun i => by simp⟩
  | cons d ds ih =>
    obtain ⟨q, hq⟩ := h d (List.mem_cons_self _ _)
    obtain ⟨l, hl, hlen, hidx⟩ := ih (fun d' hd' => h d' (List.mem_cons_of_mem _ hd'))
    refine ⟨q :: l, ?_, by simp [hlen], ?_⟩
    · unfold lookupScores
      rw [hq, hl]
      rfl
    · intro i
      cases i with
      | zero => simp [hq]
      | succ i => simpa using hidx i

theorem reshapeRows_ok {α : Type} {l : List α} {n s : Nat}
    (h : l.length = n * s) :
    ∃ rows, reshapeRows l n s = .ok rows ∧ rows.length = n ∧
      ∀ i, i < n → ∃ r, rows[i]? = some r ∧ r.length = s ∧
        ∀ j, j < s → r[j]? = l[i * s + j]? := by
  unfold reshapeRows
  rw [if_pos h]
  refine ⟨_, rfl, by simp, ?_⟩
  intro i hi
  refine ⟨(l.drop (i * s)).take s, ?_, ?_, ?_⟩
  · simp [List.getElem?_range hi]
  · have hmul : (i + 1) * s ≤ n * s := Nat.mul_le_mul_right s hi
    have hsm : (i + 1) * s = i * s + s := Nat.succ_mul i s
    simp only [List.length_take, List.length_drop, h]
    omega
  · intro j hj
    rw [List.getElem?_take_of_lt hj, List.getElem?_drop]

theorem bestIndexOf_recognized {m : String} (mv : List ℚ)
    (h : m = "mae" ∨ m = "rmse" ∨ m = "fcp") :
    ∃ bi, bestIndexOf m mv = .ok bi ∧
      ((m = "mae" ∨ m = "rmse") → bi = argminQ mv) ∧
      (m = "fcp" → bi = argmaxQ mv) := by
  rcases h with rfl | rfl | rfl
  · exact ⟨argminQ mv, by unfold bestIndexOf; simp, fun _ => rfl, by simp⟩
  · exact ⟨argminQ mv, by unfold bestIndexOf; simp, fun _ => rfl, by simp⟩
  · exact ⟨argmaxQ mv, by unfold bestIndexOf; simp, by simp, fun _ => rfl⟩

theorem buildTestMeasures_ok {dicts : List (List (String × ℚ))} {n s : Nat}
    (hlen : dicts.length = n * s) (ms : List String)
    (h : ∀ m ∈ ms, ∀ d ∈ dicts, ∃ q, d.lookup m = some q) :
    ∃ tm, buildTestMeasures dicts n s ms = .ok tm ∧
      tm.map Prod.fst = ms ∧
      ∀ m ∈ ms, ∃ M, tm.lookup m = some M ∧ M.length = n ∧
        ∀ i, i < n → ∃ r, M[i]? = some r ∧ r.length = s ∧
          ∀ j, j < s →
            r[j]? = (dicts[i * s + j]?).bind
              (fun d : List (String × ℚ) => List.lookup m d) := by
  induction ms with
  | nil => exact ⟨[], rfl, rfl, fun m hm => absurd hm (by simp)⟩
  | cons m ms ih =>
    obtain ⟨flat, hflat, hflen, hfidx⟩ :=
      lookupScores_ok (h m (List.mem_cons_self _ _))
    obtain ⟨rows, hrows, hrlen, hridx⟩ :=
      reshapeRows_ok (l := flat) (n := n) (s := s) (by rw [hflen, hlen])
    obtain ⟨tm, htm, hkeys, hprops⟩ :=
      ih (fun m' hm' => h m' (List.mem_cons_of_mem _ hm'))
    refine ⟨(m, rows) :: tm, ?_, by simp [hkeys], ?_⟩
    · unfold buildTestMeasures
      simp only [hflat, hrows, htm, Bind.bind, Except.bind]
    · intro m' hm'
      by_cases hmm : m' = m
      · subst hmm
        refine ⟨rows, by simp [List.lookup_cons], hrlen, ?_⟩
        intro i hi
        obtain ⟨r, hr, hrl, hrj⟩ := hridx i hi
        refine ⟨r, hr, hrl, ?_⟩
        intro j hj
        rw [hrj j hj, hfidx]
      · have hm'' : m' ∈ ms := by
          rcases List.mem_cons.mp hm' with he | hmem
          · exact absurd he hmm
          · exact hmem
        obtain ⟨M, hM, hMl, hMi⟩ := hprops m' hm''
        refine ⟨M, ?_, hMl, hMi⟩
        have hb : (m' == m) = false := beq_eq_false_iff_ne.mpr hmm
        simp only [List.lookup_cons, hb]
        exact hM

theorem lookup_append_of_some {κ β : Type} [DecidableEq κ]
    {l₁ : List (κ × β)} (l₂ : List (κ × β)) {k : κ} {v : β}
    (h : l₁.lookup k = some v) : (l₁ ++ l₂).lookup k = some v := by
  induction l₁ with
  | nil => cases h
  | cons q l₁ ih =>
    obtain ⟨a, b⟩ := q
    simp only [List.lookup_cons] at h
    simp only [List.cons_append, List.lookup_cons]
    cases hbe : (k == a) with
    | true => rw [hbe] at h; exact h
    | false => rw [hbe] at h; exact ih h

theorem perMeasure_key_measure {m : String} {M : List (List ℚ)} {s : Nat}
    {p : CVKey × CVVal} (hp : p ∈ perMeasureEntries m M s) :
    (∃ j, p.1 = CVKey.splitTest j m) ∨ p.1 = CVKey.meanTest m ∨
      p.1 = CVKey.rankTest m := by
  unfold perMeasureEntries at hp
  rcases List.mem_append.mp hp with h | h
  · obtain ⟨j, _, rfl⟩ := List.mem_map.mp h
    exact Or.inl ⟨j, rfl⟩
  · rcases List.mem_cons.mp h with rfl | h
    · exact Or.inr (Or.inl rfl)
    · rw [List.mem_singleton.mp h]
      exact Or.inr (Or.inr rfl)

theorem lookup_perMeasure_mean (m : String) (M : List (List ℚ)) (s : Nat) :
    (perMeasureEntries m M s).lookup (CVKey.meanTest m)
      = some (CVVal.arr (rowMeans M s)) := by
  unfold perMeasureEntries
  rw [lookup_append_of_not_mem]
  · simp [List.lookup_cons]
  · intro p hp
    obtain ⟨j, _, rfl⟩ := List.mem_map.mp hp
    simp

theorem lookup_perMeasure_rank (m : String) (M : List (List ℚ)) (s : Nat) :
    (perMeasureEntries m M s).lookup (CVKey.rankTest m)
      = some (CVVal.rankArr (rankVector (rowMeans M s))) := by
  unfold perMeasureEntries
  rw [lookup_append_of_not_mem]
  · have hb : (CVKey.rankTest m == CVKey.meanTest m) = false :=
      beq_eq_false_iff_ne.mpr (by simp)
    simp [List.lookup_cons, hb]
  · intro p hp
    obtain ⟨j, _, rfl⟩ := List.mem_map.mp hp
    simp

theorem lookup_perMeasure_split (m : String) (M : List (List ℚ)) (s j : Nat)
    (hj : j < s) :
    (perMeasureEntries m M s).lookup (CVKey.splitTest j m)
      = some (CVVal.arr (colOf M j)) := by
  refine lookup_of_mem_nodup ?_ ?_
  · unfold perMeasureEntries
    rw [List.map_append, List.map_map]
    refine List.nodup_append.mpr ⟨?_, ?_, ?_⟩
    · refine List.Nodup.map ?_ (List.nodup_range s)
      intro a b hab
      have h1 : CVKey.splitTest a m = CVKey.splitTest b m := hab
      cases h1
      rfl
    · simp
    · intro x hx hx'
      obtain ⟨j', _, rfl⟩ := List.mem_map.mp hx
      simp only [Function.comp_apply] at hx'
      simp at hx'
  · unfold perMeasureEntries
    refine List.mem_append_left _ ?_
    exact List.mem_map.mpr ⟨j, List.mem_range.mpr hj, rfl⟩

/-- Characterization of the second measure loop (lines 166-191) when every
requested measure is recognized: it succeeds, the best dicts are keyed by
the measures in order, and per measure the `cv_results` entries and the
best selections are as the source computes them. -/
theorem aggregateMeasures_ok (tm : List (String × List (List ℚ)))
    (combos : List Combo) (s : Nat) (ms : List String) (hnd : ms.Nodup)
    (hmeas : ∀ m ∈ ms, m = "mae" ∨ m = "rmse" ∨ m = "fcp") :
    ∃ agg, aggregateMeasures tm combos s ms = .ok agg ∧
      agg.best_index.map Prod.fst = ms ∧
      agg.best_params.map Prod.fst = ms ∧
      agg.best_score.map Prod.fst = ms ∧
      agg.best_estimator.map Prod.fst = ms ∧
      (∀ p ∈ agg.cv_results, ∃ m', m' ∈ ms ∧
        ((∃ j, p.1 = CVKey.splitTest j m') ∨ p.1 = CVKey.meanTest m' ∨
          p.1 = CVKey.rankTest m')) ∧
      ∀ m ∈ ms, ∃ bi,
        bestIndexOf m (rowMeans ((tm.lookup m).getD []) s) = .ok bi ∧
        agg.cv_results.lookup (CVKey.meanTest m)
          = some (CVVal.arr (rowMeans ((tm.lookup m).getD []) s)) ∧
        agg.cv_results.lookup (CVKey.rankTest m)
          = some (CVVal.rankArr (rankVector (rowMeans ((tm.lookup m).getD []) s))) ∧
        (∀ j, j < s → agg.cv_results.lookup (CVKey.splitTest j m)
          = some (CVVal.arr (colOf ((tm.lookup m).getD []) j))) ∧
        agg.best_index.lookup m = some bi ∧
        agg.best_score.lookup m
          = some ((rowMeans ((tm.lookup m).getD []) s).getD bi 0) ∧
        agg.best_params.lookup m = some (combos.getD bi []) ∧
        agg.best_estimator.lookup m = some ⟨combos.getD bi []⟩ := by
  induction ms with
  | nil => exact ⟨⟨[], [], [], [], []⟩, rfl, rfl, rfl, rfl, rfl,
      fun p hp => absurd hp (by simp), fun m hm => absurd hm (by simp)⟩
  | cons m ms ih =>
    have hm0 : m ∉ ms := (List.nodup_cons.mp hnd).1
    obtain ⟨bi, hbi, _, _⟩ :=
      bestIndexOf_recognized (rowMeans ((tm.lookup m).getD []) s)
        (hmeas m (List.mem_cons_self _ _))
    obtain ⟨agg, hagg, hik, hpk, hsk, hek, hkeystruct, hprops⟩ :=
      ih (List.nodup_cons.mp hnd).2
        (fun m' hm' => hmeas m' (List.mem_cons_of_mem _ hm'))
    refine ⟨⟨perMeasureEntries m ((tm.lookup m).getD []) s ++ agg.cv_results,
        (m, bi) :: agg.best_index,
        (m, combos.getD bi []) :: agg.best_params,
        (m, (rowMeans ((tm.lookup m).getD []) s).getD bi 0) :: agg.best_score,
        (m, ⟨combos.getD bi []⟩) :: agg.best_estimator⟩, ?_,
      by simp [hik], by simp [hpk], by simp [hsk], by simp [hek], ?_, ?_⟩
    · unfold aggregateMeasures
      simp only [hbi, hagg, Bind.bind, Except.bind]
    · intro p hp
      rcases List.mem_append.mp hp with h | h
      · exact ⟨m, List.mem_cons_self _ _, perMeasure_key_measure h⟩
      · obtain ⟨m', hm', hshape⟩ := hkeystruct p h
        exact ⟨m', List.mem_cons_of_mem _ hm', hshape⟩
    · intro m' hm'
      by_cases hmm : m' = m
      · subst hmm
        refine ⟨bi, hbi, ?_, ?_, ?_, by simp [List.lookup_cons],
          by simp [List.lookup_cons], by simp [List.lookup_cons],
          by simp [List.lookup_cons]⟩
        · exact lookup_append_of_some _ (lookup_perMeasure_mean m' _ s)
        · exact lookup_append_of_some _ (lookup_perMeasure_rank m' _ s)
        · intro j hj
          exact lookup_append_of_some _ (lookup_perMeasure_split m' _ s j hj)
      · have hmem : m' ∈ ms := by
          rcases List.mem_cons.mp hm' with he | hmem
          · exact absurd he hmm
          · exact hmem
        obtain ⟨bi', hbi', hmean, hrank, hsplit, hbidx, hbsc, hbpar, hbest⟩ :=
          hprops m' hmem
        have hskip : ∀ p ∈ perMeasureEntries m ((tm.lookup m).getD []) s,
            ∀ key : CVKey, (key = CVKey.meanTest m' ∨ key = CVKey.rankTest m' ∨
              ∃ j, key = CVKey.splitTest j m') → p.1 ≠ key := by
          intro p hp key hkey
          rcases perMeasure_key_measure hp with ⟨j, hj⟩ | hj | hj <;>
            rcases hkey with rfl | rfl | ⟨j', rfl⟩ <;>
            rw [hj] <;> simp [hmm, Ne.symm hmm]
        have hb : (m' == m) = false := beq_eq_false_iff_ne.mpr hmm
        refine ⟨bi', hbi', ?_, ?_, ?_, ?_, ?_, ?_, ?_⟩
        · rw [lookup_append_of_not_mem _
            (fun p hp => hskip p hp _ (Or.inl rfl))]
          exact hmean
        · rw [lookup_append_of_not_mem _
            (fun p hp => hskip p hp _ (Or.inr (Or.inl rfl)))]
          exact hrank
        · intro j hj
          rw [lookup_append_of_not_mem _
            (fun p hp => hskip p hp _ (Or.inr (Or.inr ⟨j, rfl⟩)))]
          exact hsplit j hj
        · simp only [List.lookup_cons, hb]; exact hbidx
        · simp only [List.lookup_cons, hb]; exact hbsc
        · simp only [List.lookup_cons, hb]; exact hbpar
        · simp only [List.lookup_cons, hb]; exact hbest

theorem length_runTrials (gs : GSState) (scorer : Scorer) (cv : CVIter)
    (data : Nat) :
    (runTrials gs scorer cv data).length
      = gs.param_combinations.length * (cv.splitsOf data).length := by
  unfold runTrials
  simp only [List.length_flatMap, Function.comp_def, List.length_map]
  exact sum_map_len_const _ _

theorem runTrials_getElem (gs : GSState) (scorer : Scorer) (cv : CVIter)
    (data : Nat) (i j : Nat) (hj : j < (cv.splitsOf data).length) :
    (runTrials gs scorer cv data)[i * (cv.splitsOf data).length + j]? =
      (gs.param_combinations[i]?).bind (fun params =>
        ((cv.splitsOf data)[j]?).map (fun spl =>
          scorer ⟨params⟩ spl.1 spl.2 gs.measures)) := by
  unfold runTrials
  exact getElem?_flatMap_map _ _ _ i j hj

/-- Master characterization of a successful `fit` run: collaborator yields
as many splits as it reports folds, at least one combination and one fold,
duplicate-free recognized measures, and a scorer that reports every
requested measure.  Then `fit` succeeds, the per-measure matrices have
shape (N, S) with cell [i, j] the scorer's score for combination i on
split j, and the aggregation entries and best selections are exactly the
source's computations. -/
theorem fitGS_ok (gs : GSState) (scorer : Scorer) (cv : CVIter) (data : Nat)
    (hsplen : (cv.splitsOf data).length = cv.n_folds)
    (hN : gs.param_combinations ≠ [])
    (hS : cv.n_folds ≠ 0)
    (hnd : gs.measures.Nodup)
    (hmeas : ∀ m ∈ gs.measures, m = "mae" ∨ m = "rmse" ∨ m = "fcp")
    (hsc : ∀ a tr te, ∀ m ∈ gs.measures,
      ∃ q, List.lookup m (scorer a tr te gs.measures).1 = some q) :
    ∃ o, fitGS gs scorer (CVConfig.iterCfg cv) data = .ok o ∧
      o.test_measures.map Prod.fst = gs.measures ∧
      o.best_index.map Prod.fst = gs.measures ∧
      o.best_params.map Prod.fst = gs.measures ∧
      o.best_score.map Prod.fst = gs.measures ∧
      o.best_estimator.map Prod.fst = gs.measures ∧
      o.cv_results.lookup CVKey.params
        = some (CVVal.comboArr gs.param_combinations) ∧
      ∀ m ∈ gs.measures, ∃ M,
        o.test_measures.lookup m = some M ∧
        M.length = gs.param_combinations.length ∧
        (∀ i, i < gs.param_combinations.length →
          ∃ r, M[i]? = some r ∧ r.length = cv.n_folds ∧
            ∀ j, j < cv.n_folds →
              ∃ params spl q,
                gs.param_combinations[i]? = some params ∧
                (cv.splitsOf data)[j]? = some spl ∧
                List.lookup m (scorer ⟨params⟩ spl.1 spl.2 gs.measures).1
                  = some q ∧
                r[j]? = some q) ∧
        o.cv_results.lookup (CVKey.meanTest m)
          = some (CVVal.arr (rowMeans M cv.n_folds)) ∧
        o.cv_results.lookup (CVKey.rankTest m)
          = some (CVVal.rankArr (rankVector (rowMeans M cv.n_folds))) ∧
        (∀ j, j < cv.n_folds → o.cv_results.lookup (CVKey.splitTest j m)
          = some (CVVal.arr (colOf M j))) ∧
        ∃ bi, bestIndexOf m (rowMeans M cv.n_folds) = .ok bi ∧
          o.best_index.lookup m = some bi ∧
          o.best_score.lookup m = some ((rowMeans M cv.n_folds).getD bi 0) ∧
          o.best_params.lookup m = some (gs.param_combinations.getD bi []) ∧
          o.best_estimator.lookup m
            = some ⟨gs.param_combinations.getD bi []⟩ := by
  have houtlen : (runTrials gs scorer cv data).length
      = gs.param_combinations.length * cv.n_folds := by
    rw [length_runTrials, hsplen]
  have hout_ne : runTrials gs scorer cv data ≠ [] := by
    intro h
    rw [h] at houtlen
    have hNpos : 0 < gs.param_combinations.length := List.length_pos.mpr hN
    have hpos : 0 < gs.param_combinations.length * cv.n_folds :=
      Nat.mul_pos hNpos (Nat.pos_of_ne_zero hS)
    simp only [List.length_nil] at houtlen
    omega
  have hunpack := unpackTrials_ok hout_ne
  have hdictslen : ((runTrials gs scorer cv data).map (fun o => o.1)).length
      = gs.param_combinations.length * cv.n_folds := by
    simpa using houtlen
  have hsc' : ∀ m ∈ gs.measures,
      ∀ d ∈ (runTrials gs scorer cv data).map (fun o => o.1),
        ∃ q, List.lookup m d = some q := by
    intro m hm d hd
    obtain ⟨o, ho, rfl⟩ := List.mem_map.mp hd
    unfold runTrials at ho
    obtain ⟨params, _, ho⟩ := List.mem_flatMap.mp ho
    obtain ⟨spl, _, rfl⟩ := List.mem_map.mp ho
    exact hsc _ _ _ m hm
  obtain ⟨tm, htm, htmkeys, htmprops⟩ :=
    buildTestMeasures_ok hdictslen gs.measures hsc'
  obtain ⟨agg, hagg, hik, hpk, hsk', hek, haggkeys, haggprops⟩ :=
    aggregateMeasures_ok tm gs.param_combinations cv.n_folds gs.measures
      hnd hmeas
  obtain ⟨fitM, hfitM, _, _⟩ := reshapeRows_ok
    (l := (runTrials gs scorer cv data).map (fun o => o.2.1))
    (n := gs.param_combinations.length) (s := cv.n_folds)
    (by simpa using houtlen)
  obtain ⟨testM, htestM, _, _⟩ := reshapeRows_ok
    (l := (runTrials gs scorer cv data).map (fun o => o.2.2))
    (n := gs.param_combinations.length) (s := cv.n_folds)
    (by simpa using houtlen)
  refine ⟨{ test_measures := tm
            cv_results := agg.cv_results ++
              [(CVKey.meanFitTime, CVVal.arr (rowMeans fitM cv.n_folds)),
               (CVKey.meanTestTime, CVVal.arr (rowMeans testM cv.n_folds)),
               (CVKey.params, CVVal.comboArr gs.param_combinations)]
            best_index := agg.best_index
            best_params := agg.best_params
            best_score := agg.best_score
            best_estimator := agg.best_estimator },
    ?_, htmkeys, hik, hpk, hsk', hek, ?_, ?_⟩
  · unfold fitGS
    simp only [get_cv, hunpack, htm, hagg, hfitM, htestM, Bind.bind,
      Except.bind]
  · show (agg.cv_results ++ _).lookup CVKey.params = _
    rw [lookup_append_of_not_mem]
    · have h1 : (CVKey.params == CVKey.meanFitTime) = false := by decide
      have h2 : (CVKey.params == CVKey.meanTestTime) = false := by decide
      simp [List.lookup_cons, h1, h2]
    · intro p hp
      obtain ⟨m', _, hshape⟩ := haggkeys p hp
      rcases hshape with ⟨j, hj⟩ | hj | hj <;> rw [hj] <;> simp
  · intro m hm
    obtain ⟨M, hM, hMlen, hMcell⟩ := htmprops m hm
    obtain ⟨bi, hbi, hmean, hrank, hsplit, hbidx, hbsc, hbpar, hbest⟩ :=
      haggprops m hm
    rw [hM] at hbi hmean hrank hsplit hbsc
    simp only [Option.getD_some] at hbi hmean hrank hsplit hbsc
    refine ⟨M, hM, hMlen, ?_, ?_, ?_, ?_, bi, hbi, hbidx, hbsc, hbpar, hbest⟩
    · intro i hi
      obtain ⟨r, hr, hrlen, hrcell⟩ := hMcell i hi
      refine ⟨r, hr, hrlen, ?_⟩
      intro j hj
      have hj' : j < (cv.splitsOf data).length := by rw [hsplen]; exact hj
      have hcomb : gs.param_combinations[i]?
          = some (gs.param_combinations.get ⟨i, hi⟩) := by
        simp [List.getElem?_eq_getElem hi, List.get_eq_getElem]
      have hspl : (cv.splitsOf data)[j]?
          = some ((cv.splitsOf data).get ⟨j, hj'⟩) := by
        simp [List.getElem?_eq_getElem hj', List.get_eq_getElem]
      obtain ⟨q, hq⟩ := hsc ⟨gs.param_combinations.get ⟨i, hi⟩⟩
        ((cv.splitsOf data).get ⟨j, hj'⟩).1
        ((cv.splitsOf data).get ⟨j, hj'⟩).2 m hm
      refine ⟨_, _, q, hcomb, hspl, hq, ?_⟩
      rw [hrcell j hj]
      have hidx : i * cv.n_folds + j = i * (cv.splitsOf data).length + j := by
        rw [hsplen]
      rw [hidx, List.getElem?_map, runTrials_getElem gs scorer cv data i j hj',
        hcomb, hspl]
      simp only [Option.bind_some, Option.map_some']
      simpa using hq
    · exact lookup_append_of_some _ hmean
    · exact lookup_append_of_some _ hrank
    · intro j hj
      exact lookup_append_of_some _ (hsplit j hj)

theorem bestIndexOf_minCase {m : String} {mv : List ℚ} {bi : Nat}
    (h : bestIndexOf m mv = .ok bi) (hm : m = "mae" ∨ m = "rmse") :
    bi = argminQ mv := by
  unfold bestIndexOf at h
  rw [if_pos hm] at h
  injection h with h
  exact h.symm

theorem bestIndexOf_maxCase {m : String} {mv : List ℚ} {bi : Nat}
    (h : bestIndexOf m mv = .ok bi) (hm : m = "fcp") : bi = argmaxQ mv := by
  unfold bestIndexOf at h
  subst hm
  rw [if_neg (by decide), if_pos rfl] at h
  injection h with h
  exact h.symm

theorem initGS_measures {g : Grid} {ms : List String} {gs : GSState}
    (h : initGS g ms = .ok gs) : gs.measures = ms.map pyLower := by
  unfold initGS at h
  cases h₁ : applyNested g "sim_options" with
  | error e =>
    rw [h₁] at h
    simp only [Bind.bind, Except.bind] at h
    cases h
  | ok g₁ =>
    rw [h₁] at h
    simp only [Bind.bind, Except.bind] at h
    cases h₂ : applyNested g₁ "bsl_options" with
    | error e => rw [h₂] at h; cases h
    | ok g₂ =>
      rw [h₂] at h
      injection h with h
      rw [← h]

/-- Concrete state `GridSearchCV(algo, {'k': [1, 2]}, measures=['rmse'])`
used by the fit witnesses (it is `initGS` of that grid, see
`gsW_from_init`). -/
def gsW : GSState :=
  { param_grid := [("k", GridVal.seq [PVal.base (PBase.nat 1),
      PVal.base (PBase.nat 2)])]
    measures := ["rmse"]
    param_combinations := [[("k", PVal.base (PBase.nat 1))],
      [("k", PVal.base (PBase.nat 2))]] }

theorem gsW_from_init :
    initGS [("k", GridVal.seq [PVal.base (PBase.nat 1),
      PVal.base (PBase.nat 2)])] ["RMSE"] = .ok gsW := by
  rfl

/-- Concrete two-fold CV iterator used by the fit witnesses. -/
def cvW : CVIter := { n_folds := 2, splitsOf := fun d => [(d, 0), (d, 1)] }

/-- Concrete deterministic scorer used by the fit witnesses: rmse of a
trial is the combination size plus the testset token. -/
def scorerW : Scorer := fun a _ te _ =>
  ([("rmse", (a.params.length : ℚ) + (te : ℚ))], 1, 2)

/-!
C3 — after `fit`, each requested measure's results matrix has shape (N, S)
and cell [i, j] is the score the scorer reported for combination i on
split j (combinations are the outer trial loop, splits the inner one, and
the flat result list is reshaped row-major, so position is what matters,
not execution order — joblib returns results in submission order).
-/

/-- C3: with an honest CV collaborator (as many splits as reported folds),
at least one combination and fold, duplicate-free recognized measures and
a scorer reporting every requested measure, `fit` succeeds and for every
requested measure the matrix `test_measures[m]` has `N` rows of `S`
columns, and row `i`, column `j` holds exactly the score the scorer
returned for combination `i` on split `j`. -/
theorem C3_results_matrix (gs : GSState) (scorer : Scorer) (cv : CVIter)
    (data : Nat)
    (hsplen : (cv.splitsOf data).length = cv.n_folds)
    (hN : gs.param_combinations ≠ [])
    (hS : cv.n_folds ≠ 0)
    (hnd : gs.measures.Nodup)
    (hmeas : ∀ m ∈ gs.measures, m = "mae" ∨ m = "rmse" ∨ m = "fcp")
    (hsc : ∀ a tr te, ∀ m ∈ gs.measures,
      ∃ q, List.lookup m (scorer a tr te gs.measures).1 = some q) :
    ∃ o, fitGS gs scorer (CVConfig.iterCfg cv) data = .ok o ∧
      ∀ m ∈ gs.measures, ∃ M,
        o.test_measures.lookup m = some M ∧
        M.length = gs.param_combinations.length ∧
        ∀ i, i < gs.param_combinations.length →
          ∃ r, M[i]? = some r ∧ r.length = cv.n_folds ∧
            ∀ j, j < cv.n_folds →
              ∃ params spl q,
                gs.param_combinations[i]? = some params ∧
                (cv.splitsOf data)[j]? = some spl ∧
                List.lookup m (scorer ⟨params⟩ spl.1 spl.2 gs.measures).1
                  = some q ∧
                r[j]? = some q := by
  obtain ⟨o, hfit, _, _, _, _, _, _, hprops⟩ :=
    fitGS_ok gs scorer cv data hsplen hN hS hnd hmeas hsc
  refine ⟨o, hfit, ?_⟩
  intro m hm
  obtain ⟨M, hM, hMlen, hMcell, _⟩ := hprops m hm
  exact ⟨M, hM, hMlen, hMcell⟩

/-- Witness for C3: two combinations, two splits, measure `rmse`. -/
theorem C3_results_matrix_witness :
    ∃ o, fitGS gsW scorerW (CVConfig.iterCfg cvW) 0 = .ok o ∧
      ∀ m ∈ gsW.measures, ∃ M,
        o.test_measures.lookup m = some M ∧
        M.length = gsW.param_combinations.length ∧
        ∀ i, i < gsW.param_combinations.length →
          ∃ r, M[i]? = some r ∧ r.length = cvW.n_folds ∧
            ∀ j, j < cvW.n_folds →
              ∃ params spl q,
                gsW.param_combinations[i]? = some params ∧
                (cvW.splitsOf 0)[j]? = some spl ∧
                List.lookup m (scorerW ⟨params⟩ spl.1 spl.2 gsW.measures).1
                  = some q ∧
                r[j]? = some q :=
  C3_results_matrix gsW scorerW cvW 0 (by decide) (by decide) (by decide)
    (by decide) (by decide)
    (fun a tr te m hm => by
      rw [List.mem_singleton.mp hm]
      exact ⟨_, rfl⟩)

/-!
C4 — per measure, `best_index` is the argmin of the mean-score vector for
the error measures `'mae'`/`'rmse'` and the argmax for `'fcp'`;
`best_score` is the mean vector at that index; `best_params` is
`param_combinations[best_index]`.
-/

/-- C4: under the fit-success hypotheses, for every requested measure `m`
with mean vector `mv = rowMeans test_measures[m]`: `best_index[m]` is
`argmin mv` when `m` is `'mae'` or `'rmse'` and `argmax mv` when `m` is
`'fcp'`; `best_score[m] = mv[best_index[m]]`; and `best_params[m] =
param_combinations[best_index[m]]`. -/
theorem C4_best_selection (gs : GSState) (scorer : Scorer) (cv : CVIter)
    (data : Nat)
    (hsplen : (cv.splitsOf data).length = cv.n_folds)
    (hN : gs.param_combinations ≠ [])
    (hS : cv.n_folds ≠ 0)
    (hnd : gs.measures.Nodup)
    (hmeas : ∀ m ∈ gs.measures, m = "mae" ∨ m = "rmse" ∨ m = "fcp")
    (hsc : ∀ a tr te, ∀ m ∈ gs.measures,
      ∃ q, List.lookup m (scorer a tr te gs.measures).1 = some q) :
    ∃ o, fitGS gs scorer (CVConfig.iterCfg cv) data = .ok o ∧
      ∀ m ∈ gs.measures, ∃ M,
        o.test_measures.lookup m = some M ∧
        o.cv_results.lookup (CVKey.meanTest m)
          = some (CVVal.arr (rowMeans M cv.n_folds)) ∧
        ((m = "mae" ∨ m = "rmse") →
          o.best_index.lookup m = some (argminQ (rowMeans M cv.n_folds))) ∧
        (m = "fcp" →
          o.best_index.lookup m = some (argmaxQ (rowMeans M cv.n_folds))) ∧
        ∃ bi, o.best_index.lookup m = some bi ∧
          o.best_score.lookup m
            = some ((rowMeans M cv.n_folds).getD bi 0) ∧
          o.best_params.lookup m
            = some (gs.param_combinations.getD bi []) := by
  obtain ⟨o, hfit, _, _, _, _, _, _, hprops⟩ :=
    fitGS_ok gs scorer cv data hsplen hN hS hnd hmeas hsc
  refine ⟨o, hfit, ?_⟩
  intro m hm
  obtain ⟨M, hM, _, _, hmean, _, _, bi, hbi, hbidx, hbsc, hbpar, _⟩ :=
    hprops m hm
  refine ⟨M, hM, hmean, ?_, ?_, bi, hbidx, hbsc, hbpar⟩
  · intro hcase
    rw [hbidx, bestIndexOf_minCase hbi hcase]
  · intro hcase
    rw [hbidx, bestIndexOf_maxCase hbi hcase]

/-- Witness for C4: two combinations, two splits, measure `rmse`. -/
theorem C4_best_selection_witness :
    ∃ o, fitGS gsW scorerW (CVConfig.iterCfg cvW) 0 = .ok o ∧
      ∀ m ∈ gsW.measures, ∃ M,
        o.test_measures.lookup m = some M ∧
        o.cv_results.lookup (CVKey.meanTest m)
          = some (CVVal.arr (rowMeans M cvW.n_folds)) ∧
        ((m = "mae" ∨ m = "rmse") →
          o.best_index.lookup m = some (argminQ (rowMeans M cvW.n_folds))) ∧
        (m = "fcp" →
          o.best_index.lookup m = some (argmaxQ (rowMeans M cvW.n_folds))) ∧
        ∃ bi, o.best_index.lookup m = some bi ∧
          o.best_score.lookup m
            = some ((rowMeans M cvW.n_folds).getD bi 0) ∧
          o.best_params.lookup m
            = some (gsW.param_combinations.getD bi []) :=
  C4_best_selection gsW scorerW cvW 0 (by decide) (by decide) (by decide)
    (by decide) (by decide)
    (fun a tr te m hm => by
      rw [List.mem_singleton.mp hm]
      exact ⟨_, rfl⟩)

/-!
C10 — measure names are lowercased on construction and all downstream
result keys use the lowercase names.
-/

/-- C10: construction stores the element-wise lowercase of the requested
measure names, and (under the fit-success hypotheses) every downstream
key — `test_measures`, `best_index`, `best_params`, `best_score`,
`best_estimator` and the per-measure `cv_results` entries — uses the
lowercased names, so a caller passing `'RMSE'` reads results under
`'rmse'`. -/
theorem C10_lowercase_measures (g : Grid) (ms : List String) (gs : GSState)
    (scorer : Scorer) (cv : CVIter) (data : Nat)
    (hinit : initGS g ms = .ok gs)
    (hsplen : (cv.splitsOf data).length = cv.n_folds)
    (hN : gs.param_combinations ≠ [])
    (hS : cv.n_folds ≠ 0)
    (hnd : gs.measures.Nodup)
    (hmeas : ∀ m ∈ gs.measures, m = "mae" ∨ m = "rmse" ∨ m = "fcp")
    (hsc : ∀ a tr te, ∀ m ∈ gs.measures,
      ∃ q, List.lookup m (scorer a tr te gs.measures).1 = some q) :
    gs.measures = ms.map pyLower ∧
    ∃ o, fitGS gs scorer (CVConfig.iterCfg cv) data = .ok o ∧
      o.test_measures.map Prod.fst = ms.map pyLower ∧
      o.best_index.map Prod.fst = ms.map pyLower ∧
      o.best_params.map Prod.fst = ms.map pyLower ∧
      o.best_score.map Prod.fst = ms.map pyLower ∧
      o.best_estimator.map Prod.fst = ms.map pyLower ∧
      ∀ m ∈ ms, ∃ v, o.cv_results.lookup (CVKey.meanTest (pyLower m))
        = some v := by
  have hlower : gs.measures = ms.map pyLower := initGS_measures hinit
  obtain ⟨o, hfit, htmk, hik, hpk, hsk, hek, _, hprops⟩ :=
    fitGS_ok gs scorer cv data hsplen hN hS hnd hmeas hsc
  refine ⟨hlower, o, hfit, hlower ▸ htmk, hlower ▸ hik, hlower ▸ hpk,
    hlower ▸ hsk, hlower ▸ hek, ?_⟩
  intro m hm
  have hmem : pyLower m ∈ gs.measures := by
    rw [hlower]
    exact List.mem_map_of_mem pyLower hm
  obtain ⟨M, _, _, _, hmean, _⟩ := hprops (pyLower m) hmem
  exact ⟨_, hmean⟩

/-- Witness for C10 with requested measures `['RMSE']`, read back under
`'rmse'`. -/
theorem C10_lowercase_measures_witness :
    gsW.measures = (["RMSE"].map pyLower) ∧
    ∃ o, fitGS gsW scorerW (CVConfig.iterCfg cvW) 0 = .ok o ∧
      o.test_measures.map Prod.fst = ["RMSE"].map pyLower ∧
      o.best_index.map Prod.fst = ["RMSE"].map pyLower ∧
      o.best_params.map Prod.fst = ["RMSE"].map pyLower ∧
      o.best_score.map Prod.fst = ["RMSE"].map pyLower ∧
      o.best_estimator.map Prod.fst = ["RMSE"].map pyLower ∧
      ∀ m ∈ ["RMSE"], ∃ v, o.cv_results.lookup (CVKey.meanTest (pyLower m))
        = some v :=
  C10_lowercase_measures
    [("k", GridVal.seq [PVal.base (PBase.nat 1), PVal.base (PBase.nat 2)])]
    ["RMSE"] gsW scorerW cvW 0 gsW_from_init (by decide) (by decide)
    (by decide) (by decide) (by decide)
    (fun a tr te m hm => by
      rw [List.mem_singleton.mp hm]
      exact ⟨_, rfl⟩)

/-!
C6 — an unrecognized measure name.  The code does NOT validate measure
names up front: all trials are dispatched and scored first (lines
131-140), the per-measure score lists are built and reshaped (lines
157-159), and only when the second measure loop reaches the unrecognized
name does `best_index[m]` raise `KeyError` (lines 184-189).  So the claim's
"surfaced immediately, before any trial computation is attempted" is
false; the error is signaled only after every trial has run.
-/

theorem aggregateMeasures_err (tm : List (String × List (List ℚ)))
    (combos : List Combo) (s : Nat) (ms : List String)
    (hbad : ∃ m ∈ ms, ¬(m = "mae" ∨ m = "rmse" ∨ m = "fcp")) :
    ∃ m ∈ ms, ¬(m = "mae" ∨ m = "rmse" ∨ m = "fcp") ∧
      aggregateMeasures tm combos s ms = .error (PyErr.keyError m) := by
  induction ms with
  | nil => obtain ⟨m, hm, _⟩ := hbad; cases hm
  | cons m ms ih =>
    by_cases hrec : m = "mae" ∨ m = "rmse" ∨ m = "fcp"
    · have hbad' : ∃ m' ∈ ms, ¬(m' = "mae" ∨ m' = "rmse" ∨ m' = "fcp") := by
        obtain ⟨m', hm', hnr⟩ := hbad
        rcases List.mem_cons.mp hm' with rfl | hmem
        · exact absurd hrec hnr
        · exact ⟨m', hmem, hnr⟩
      obtain ⟨m', hm', hnr, herr⟩ := ih hbad'
      obtain ⟨bi, hbi, _, _⟩ :=
        bestIndexOf_recognized (rowMeans ((tm.lookup m).getD []) s) hrec
      refine ⟨m', List.mem_cons_of_mem _ hm', hnr, ?_⟩
      unfold aggregateMeasures
      simp only [hbi, herr, Bind.bind, Except.bind]
    · have h1 : ¬(m = "mae" ∨ m = "rmse") := by
        intro h
        exact hrec (h.elim Or.inl (fun h => Or.inr (Or.inl h)))
      have h2 : ¬(m = "fcp") := fun h => hrec (Or.inr (Or.inr h))
      have hbi : bestIndexOf m (rowMeans ((tm.lookup m).getD []) s)
          = .error (PyErr.keyError m) := by
        unfold bestIndexOf
        rw [if_neg h1, if_neg h2]
      refine ⟨m, List.mem_cons_self _ _, hrec, ?_⟩
      unfold aggregateMeasures
      simp only [hbi, Bind.bind, Except.bind]

/-- Amended C6: if some requested measure has no better-direction mapping,
`fit` does fail with a signaled `KeyError` for an unrecognized measure
(never silently defaulting) — but only in the aggregation stage, after all
`N * S` trials have been dispatched and scored, not before any trial
computation. -/
theorem C6_unknown_measure_error_after_trials (gs : GSState)
    (scorer : Scorer) (cv : CVIter) (data : Nat)
    (hsplen : (cv.splitsOf data).length = cv.n_folds)
    (hN : gs.param_combinations ≠ [])
    (hS : cv.n_folds ≠ 0)
    (hbad : ∃ m ∈ gs.measures, ¬(m = "mae" ∨ m = "rmse" ∨ m = "fcp"))
    (hsc : ∀ a tr te, ∀ m ∈ gs.measures,
      ∃ q, List.lookup m (scorer a tr te gs.measures).1 = some q) :
    (∃ m ∈ gs.measures, ¬(m = "mae" ∨ m = "rmse" ∨ m = "fcp") ∧
      fitGS gs scorer (CVConfig.iterCfg cv) data
        = .error (PyErr.keyError m)) ∧
    (runTrials gs scorer cv data).length
      = gs.param_combinations.length * cv.n_folds ∧
    (runTrials gs scorer cv data).length ≠ 0 := by
  have houtlen : (runTrials gs scorer cv data).length
      = gs.param_combinations.length * cv.n_folds := by
    rw [length_runTrials, hsplen]
  have hpos : (runTrials gs scorer cv data).length ≠ 0 := by
    rw [houtlen]
    have hNpos : 0 < gs.param_combinations.length := List.length_pos.mpr hN
    have := Nat.mul_pos hNpos (Nat.pos_of_ne_zero hS)
    omega
  have hout_ne : runTrials gs scorer cv data ≠ [] := by
    intro h
    rw [h] at hpos
    exact hpos rfl
  have hunpack := unpackTrials_ok hout_ne
  have hdictslen : ((runTrials gs scorer cv data).map (fun o => o.1)).length
      = gs.param_combinations.length * cv.n_folds := by
    simpa using houtlen
  have hsc' : ∀ m ∈ gs.measures,
      ∀ d ∈ (runTrials gs scorer cv data).map (fun o => o.1),
        ∃ q, List.lookup m d = some q := by
    intro m hm d hd
    obtain ⟨o, ho, rfl⟩ := List.mem_map.mp hd
    unfold runTrials at ho
    obtain ⟨params, _, ho⟩ := List.mem_flatMap.mp ho
    obtain ⟨spl, _, rfl⟩ := List.mem_map.mp ho
    exact hsc _ _ _ m hm
  obtain ⟨tm, htm, _, _⟩ := buildTestMeasures_ok hdictslen gs.measures hsc'
  obtain ⟨m, hm, hnr, herr⟩ :=
    aggregateMeasures_err tm gs.param_combinations cv.n_folds gs.measures hbad
  refine ⟨⟨m, hm, hnr, ?_⟩, houtlen, hpos⟩
  unfold fitGS
  simp only [get_cv, hunpack, htm, herr, Bind.bind, Except.bind]

/-- State `GridSearchCV(algo, {'k': [1, 2]}, measures=['foo'])` with an
unrecognized measure name, for the C6 counterexample. -/
def gsFoo : GSState :=
  { param_grid := [("k", GridVal.seq [PVal.base (PBase.nat 1),
      PVal.base (PBase.nat 2)])]
    measures := ["foo"]
    param_combinations := [[("k", PVal.base (PBase.nat 1))],
      [("k", PVal.base (PBase.nat 2))]] }

/-- Scorer that reports the requested measure `'foo'` on every trial, for
the C6 counterexample. -/
def scorerFoo : Scorer := fun _ _ _ _ => ([("foo", 1)], 1, 2)

/-- Counterexample to C6 as stated: with measure `'foo'` (no direction
mapping), two combinations and two splits, `fit` does fail with
`KeyError('foo')` — but only after all four trials have been computed
(the trial list of the run has length 4) and their `'foo'` scores
collected and reshaped, not "before any trial computation is attempted"
(which would require the trial count at failure to be 0). -/
theorem C6_counterexample :
    fitGS gsFoo scorerFoo (CVConfig.iterCfg cvW) 0
      = .error (PyErr.keyError "foo") ∧
    (runTrials gsFoo scorerFoo cvW 0).length = 4 ∧
    buildTestMeasures ((runTrials gsFoo scorerFoo cvW 0).map (fun o => o.1))
      2 2 ["foo"]
      = .ok [("foo", [[1, 1], [1, 1]])] := by
  refine ⟨rfl, rfl, rfl⟩

/-- Witness for the amended C6 at the same concrete run. -/
theorem C6_unknown_measure_error_after_trials_witness :
    (∃ m ∈ gsFoo.measures, ¬(m = "mae" ∨ m = "rmse" ∨ m = "fcp") ∧
      fitGS gsFoo scorerFoo (CVConfig.iterCfg cvW) 0
        = .error (PyErr.keyError m)) ∧
    (runTrials gsFoo scorerFoo cvW 0).length
      = gsFoo.param_combinations.length * cvW.n_folds ∧
    (runTrials gsFoo scorerFoo cvW 0).length ≠ 0 :=
  C6_unknown_measure_error_after_trials gsFoo scorerFoo cvW 0 (by decide)
    (by decide) (by decide)
    ⟨"foo", by decide, by decide⟩
    (fun a tr te m hm => by
      rw [List.mem_singleton.mp hm]
      exact ⟨_, rfl⟩)

/-!
C7 — trial-count mismatch.  When the CV collaborator yields a split count
different from its reported fold count, the collected result list has
length `N * |splits| ≠ N * S` and `np.reshape` to `(N, S)` raises
`ValueError` — the code never truncates or pads.  One corner deviates from
the claim's wording: when the collaborator yields zero splits the result
list is empty and `fit` already fails at line 142, where unpacking
`zip(*out)` into three names raises `ValueError` — before any reshape is
attempted.
-/

theorem buildTestMeasures_err {dicts : List (List (String × ℚ))} {n s : Nat}
    (hlen : dicts.length ≠ n * s) {m : String} (ms : List String)
    (hm : ∀ d ∈ dicts, ∃ q, List.lookup m d = some q) :
    buildTestMeasures dicts n s (m :: ms) = .error PyErr.valueErrorReshape := by
  obtain ⟨flat, hflat, hflen, _⟩ := lookupScores_ok hm
  have hre : reshapeRows flat n s = .error PyErr.valueErrorReshape := by
    unfold reshapeRows
    rw [if_neg (by rw [hflen]; exact hlen)]
  unfold buildTestMeasures
  simp only [hflat, hre, Bind.bind, Except.bind]

/-- Amended C7: if the number of collected trial results differs from
`N * S`, `fit` fails — with the reshape `ValueError` whenever at least one
result was collected, and with the `zip(*out)`-unpacking `ValueError`
when the result list is empty; it never silently truncates or pads. -/
theorem C7_mismatch_fails (gs : GSState) (scorer : Scorer) (cv : CVIter)
    (data : Nat)
    (hsc : ∀ a tr te, ∀ m ∈ gs.measures,
      ∃ q, List.lookup m (scorer a tr te gs.measures).1 = some q)
    (hmm : (runTrials gs scorer cv data).length
      ≠ gs.param_combinations.length * cv.n_folds) :
    (runTrials gs scorer cv data = [] ∧
      fitGS gs scorer (CVConfig.iterCfg cv) data
        = .error PyErr.valueErrorUnpack) ∨
    (runTrials gs scorer cv data ≠ [] ∧
      fitGS gs scorer (CVConfig.iterCfg cv) data
        = .error PyErr.valueErrorReshape) := by
  by_cases hout : runTrials gs scorer cv data = []
  · refine Or.inl ⟨hout, ?_⟩
    unfold fitGS
    have hu : unpackTrials (runTrials gs scorer cv data)
        = .error PyErr.valueErrorUnpack := by
      rw [hout]
      rfl
    simp only [get_cv, hu, Bind.bind, Except.bind]
  · refine Or.inr ⟨hout, ?_⟩
    have hunpack := unpackTrials_ok hout
    have hdlen : ((runTrials gs scorer cv data).map (fun o => o.1)).length
        ≠ gs.param_combinations.length * cv.n_folds := by
      simpa using hmm
    have hsc' : ∀ m ∈ gs.measures,
        ∀ d ∈ (runTrials gs scorer cv data).map (fun o => o.1),
          ∃ q, List.lookup m d = some q := by
      intro m hm d hd
      obtain ⟨o, ho, rfl⟩ := List.mem_map.mp hd
      unfold runTrials at ho
      obtain ⟨params, _, ho⟩ := List.mem_flatMap.mp ho
      obtain ⟨spl, _, rfl⟩ := List.mem_map.mp ho
      exact hsc _ _ _ m hm
    cases hms : gs.measures with
    | nil =>
      -- no measures: both measure loops are empty and the mismatch errors
      -- at the fit-times reshape (line 194)
      have htm : buildTestMeasures
          ((runTrials gs scorer cv data).map (fun o => o.1))
          gs.param_combinations.length cv.n_folds gs.measures = .ok [] := by
        rw [hms]; rfl
      have hagg : aggregateMeasures []
          gs.param_combinations cv.n_folds gs.measures
          = .ok ⟨[], [], [], [], []⟩ := by
        rw [hms]; rfl
      have hfitre : reshapeRows
          ((runTrials gs scorer cv data).map (fun o => o.2.1))
          gs.param_combinations.length cv.n_folds
          = .error PyErr.valueErrorReshape := by
        unfold reshapeRows
        rw [if_neg (by simpa using hmm)]
      unfold fitGS
      simp only [get_cv, hunpack, htm, hagg, hfitre, Bind.bind, Except.bind]
    | cons m ms =>
      have htm : buildTestMeasures
          ((runTrials gs scorer cv data).map (fun o => o.1))
          gs.param_combinations.length cv.n_folds gs.measures
          = .error PyErr.valueErrorReshape := by
        rw [hms]
        exact buildTestMeasures_err hdlen ms
          (hsc' m (by rw [hms]; exact List.mem_cons_self _ _))
      unfold fitGS
      simp only [get_cv, hunpack, htm, Bind.bind, Except.bind]

/-- Misbehaving CV collaborator for the C7 counterexample: reports two
folds but yields no splits. -/
def cvNoSplits : CVIter := { n_folds := 2, splitsOf := fun _ => [] }

/-- Misbehaving CV collaborator for the C7 witness: reports two folds but
yields a single split. -/
def cvOneSplit : CVIter := { n_folds := 2, splitsOf := fun d => [(d, 0)] }

/-- Counterexample to C7 as stated: with a collaborator that reports two
folds but yields zero splits, the collected result count (0) differs from
`N * S = 4`, and `fit` does fail — but at the `zip(*out)` unpacking of the
empty result list (line 142), not during reshaping, so "fit fails with an
error during reshaping" is false for this input. -/
theorem C7_counterexample :
    (runTrials gsW scorerW cvNoSplits 0).length
      ≠ gsW.param_combinations.length * cvNoSplits.n_folds ∧
    fitGS gsW scorerW (CVConfig.iterCfg cvNoSplits) 0
      = .error PyErr.valueErrorUnpack ∧
    fitGS gsW scorerW (CVConfig.iterCfg cvNoSplits) 0
      ≠ .error PyErr.valueErrorReshape := by
  refine ⟨by decide, rfl, ?_⟩
  intro h
  rw [show fitGS gsW scorerW (CVConfig.iterCfg cvNoSplits) 0
    = .error PyErr.valueErrorUnpack from rfl] at h
  simp at h

/-- Witness for the amended C7: one split yielded, two folds reported,
two combinations — three results collected instead of four, and `fit`
fails with the reshape `ValueError`. -/
theorem C7_mismatch_fails_witness :
    (runTrials gsW scorerW cvOneSplit 0 = [] ∧
      fitGS gsW scorerW (CVConfig.iterCfg cvOneSplit) 0
        = .error PyErr.valueErrorUnpack) ∨
    (runTrials gsW scorerW cvOneSplit 0 ≠ [] ∧
      fitGS gsW scorerW (CVConfig.iterCfg cvOneSplit) 0
        = .error PyErr.valueErrorReshape) :=
  C7_mismatch_fails gsW scorerW cvOneSplit 0
    (fun a tr te m hm => by
      rw [List.mem_singleton.mp hm]
      exact ⟨_, rfl⟩)
    (by decide)

/-!
C5 — rank tie-breaking.  `rank_test_<m>` is built from
`mean.argsort()` (line 179) with numpy's default `kind='quicksort'`
(introsort).  That sort is deterministic but NOT stable: as soon as the
mean vector is longer than 16 entries, the quicksort partition swaps
reorder equal elements, so tied means are NOT ranked in ascending
combination-index order as the spec requires.  With 17 combinations whose
means are all equal (a constant scorer), the embedded introsort produces
the index order [0, 14, 13, 12, 11, 10, 9, 15, 8, 6, 5, 4, 3, 2, 1, 7, 16]
and hence the rank vector below instead of [1, 2, ..., 17].  (For 16 or
fewer combinations the sort is a pure insertion sort and IS stable.)
-/

/-- Seventeen one-parameter combinations `{'k': i}`, measure `rmse`. -/
def gs17 : GSState :=
  { param_grid := [("k", GridVal.seq ((List.range 17).map
      (fun i => PVal.base (PBase.nat i))))]
    measures := ["rmse"]
    param_combinations := (List.range 17).map
      (fun i => [("k", PVal.base (PBase.nat i))]) }

/-- Single-fold CV iterator for the C5 run. -/
def cvOne : CVIter := { n_folds := 1, splitsOf := fun d => [(d, 0)] }

/-- Constant scorer: every trial reports the same rmse, so all 17 mean
scores are tied. -/
def scorerConst : Scorer := fun _ _ _ _ => ([("rmse", 0)], 1, 2)

/-- C5 failing-input evaluation: on 17 combinations with all mean scores
tied, `fit` succeeds and `cv_results['rank_test_rmse']` is the introsort
partition order — a permutation of 1..17, but NOT the stable
ascending-index ranking [1, 2, ..., 17] the claim requires for tied
means. -/
theorem C5_tied_ranks_not_stable :
    (fitGS gs17 scorerConst (CVConfig.iterCfg cvOne) 0).map
        (fun o => o.cv_results.lookup (CVKey.rankTest "rmse"))
      = .ok (some (CVVal.rankArr
          [1, 15, 14, 13, 12, 11, 10, 16, 9, 7, 6, 5, 4, 3, 2, 8, 17])) ∧
    ([1, 15, 14, 13, 12, 11, 10, 16, 9, 7, 6, 5, 4, 3, 2, 8, 17] : List Nat)
      ≠ (List.range 17).map (fun i => i + 1) := by
  constructor
  · decide
  · decide

